import Mathlib

/-! The buffer cache of kernel/bio.c.

A shallow embedding of the block-buffer cache (`kernel/bio.c`): the buffer
pool `bcache.buf`, the bucket index `table[NBUCKET][TABLE_SIZE]`, the index
operations `insert`, `put` and `get`, and the public operations `binit`,
`bread` (through `bget`), `brelse`, `bpin` and `bunpin`.

Conventions of the embedding.

* A `struct buf *` is the index of the slot in `bcache.buf`; a bucket entry
  `struct entry` is `none` (null `buf_value`) or `some k`.
* `NBUF` (param.h, not among the sources) is a parameter: the length of
  `bcache.buf`, at least 1.  `TABLE_SIZE` is `NBUF`, the length of every row of
  the table; the loops over a bucket run over its row.
* Every operation is one atomic step: the spin locks (`bcache.lock`,
  `buffer_lock[i]`, `tickslock`) only delimit the critical sections and are
  not part of the state.  The sleep lock of a slot is part of the state, as
  the pid of its holder.
* A call that does not return is a `Stop`: a `panic`, an access outside an
  array (undefined behaviour in C), or a wait for a sleep lock that is held.
* `uint` values are natural numbers below `2 ^ 32`; the conversions between
  `uint` and `int` that the code performs are explicit (`toInt`, `toUint`), and
  so is the wrap-around of the pin count (`incr`, `decr`).
* An index outside an array stops the call, with one exception that the code
  relies on: `table[i][TABLE_SIZE]`, which `put` reads after a loop that ran to
  its end, is the first entry of the next row of the two-dimensional array.
-/

namespace Bio

/-- Ways in which a call fails to return to its caller. -/
inductive Stop where
  /-- The kernel halts in `panic(msg)`. -/
  | panics (msg : String)
  /-- An array is indexed outside its bounds. -/
  | outOfBounds
  /-- The caller waits in `acquiresleep` for a sleep lock that is held. -/
  | sleeps
deriving DecidableEq, Repr

deriving instance DecidableEq for Except

/-- The number of buckets, `#define NBUCKET 13`. -/
def NBUCKET : Nat := 13

/-- The largest `uint`, the value of `uint min_ticks = -1`. -/
def UINT_MAX : Nat := 4294967295

/-- The statement `refcnt++` on a `uint` pin count: `4294967295` wraps to 0. -/
def incr (r : Nat) : Nat := (r + 1) % 4294967296

/-- The statement `refcnt--` on a `uint` pin count: 0 wraps to `4294967295`. -/
def decr (r : Nat) : Nat := (r + 4294967295) % 4294967296

/-- Modelled from the spec: `struct buf` is declared in buf.h, which is not among the
sources.  One buffer slot with the fields bio.c uses and the data model of the spec lists:
the validity flag `valid`, the identity `dev` and `blockno`, the pin count `refcnt`, the
recency value `ticks`, the exclusive lock `lock` (the pid of its holder, `none` when free)
and the payload `data`, kept abstract.  The pin count is a `uint`, as `dev` and `blockno`
are: a natural number below `2 ^ 32` on which `refcnt++` and `refcnt--` wrap around
(`incr`, `decr`). -/
structure Buf where
  valid : Nat
  dev : Nat
  blockno : Nat
  refcnt : Nat
  ticks : Nat
  lock : Option Nat
  data : Nat
deriving DecidableEq, Repr

/-- The state of the cache: the pool `bcache.buf[NBUF]` and the bucket index
`table[NBUCKET][TABLE_SIZE]`. -/
structure Bcache where
  buf : List Buf
  table : List (List (Option Nat))
deriving DecidableEq, Repr

/-- The conversion of a `uint` argument to the `int key` parameter of `get` and `put`
(two's complement, as on the RISC-V target). -/
def toInt (u : Nat) : Int :=
  if u % 4294967296 < 2147483648 then ((u % 4294967296 : Nat) : Int)
  else ((u % 4294967296 : Nat) : Int) - 4294967296

/-- The conversion of an `int` to `uint` that C applies to `key` in the comparison
`buf_value->blockno == key`. -/
def toUint (key : Int) : Nat := (key % 4294967296).toNat

/-- The bucket of a key, `int i = key % NBUCKET`: the remainder of C, truncated towards
zero, negative for some negative keys. -/
def bucketOf (key : Int) : Int := Int.tmod key (NBUCKET : Int)

/-- The test `e.buf_value && e.buf_value->blockno == key` on one entry. -/
def hasKey (buf : List Buf) (key : Int) (e : Option Nat) : Bool :=
  match e with
  | none => false
  | some k =>
    match buf[k]? with
    | some b => b.blockno == toUint key
    | none => false

/-- The function `insert`: `p[posx][posy].buf_value = buf_value`. -/
def insert (buf_value : Nat) (p : List (List (Option Nat))) (posx posy : Nat) :
    List (List (Option Nat)) :=
  match p[posx]? with
  | some row => p.set posx (row.set posy (some buf_value))
  | none => p

/-- The loop of `put` over one bucket: the first `j` whose entry is empty or has the key;
`TABLE_SIZE`, the length of the row, when the loop runs to its end. -/
def putScan (buf : List Buf) (key : Int) : List (Option Nat) → Nat
  | [] => 0
  | e :: es => if e.isNone || hasKey buf key e then 0 else putScan buf key es + 1

/-- The entry `table[i][j]` of a table, `none` outside the table. -/
def entry (t : List (List (Option Nat))) (i j : Nat) : Option (Option Nat) :=
  (t[i]?).bind (fun row => row[j]?)

/-- The place that `table[i][j]` designates after the loop of `put`, for a bucket of
`size` entries.  With `j == TABLE_SIZE` it is the element after the last one of row `i`;
the array `table[NBUCKET][TABLE_SIZE]` is laid out row after row, so that is the first
entry of bucket `i + 1`, and past the last bucket it is outside the table. -/
def afterLoop (size i j : Nat) : Nat × Nat :=
  if j < size then (i, j) else (i + 1, 0)

/-- The function `put(key, buf_value)`.  After the loop the code tests `table[i][j]`: when
that entry has the key it is assigned `buf_value`; otherwise `insert` writes entry `j` when
`j != TABLE_SIZE`, and entry 0 of the bucket when the loop ran to its end. -/
def put (s : Bcache) (key : Int) (buf_value : Nat) : Except Stop (List (List (Option Nat))) :=
  let i := bucketOf key
  if i < 0 then .error .outOfBounds
  else
    match s.table[i.toNat]? with
    | none => .error .outOfBounds
    | some row =>
      let j := putScan s.buf key row
      let loc := afterLoop row.length i.toNat j
      match entry s.table loc.1 loc.2 with
      | none => .error .outOfBounds
      | some e =>
        if hasKey s.buf key e then .ok (insert buf_value s.table loc.1 loc.2)
        else if j ≠ row.length then .ok (insert buf_value s.table i.toNat j)
        else .ok (insert buf_value s.table i.toNat 0)

/-- The loop of `get` over one bucket: the first entry that has the key. -/
def getScan (buf : List Buf) (key : Int) : List (Option Nat) → Option Nat
  | [] => none
  | e :: es => if hasKey buf key e then e else getScan buf key es

/-- The function `get(key)`: the `buf_value` of the entry it returns, `none` for the null
pointer. -/
def get (s : Bcache) (key : Int) : Except Stop (Option Nat) :=
  let i := bucketOf key
  if i < 0 then .error .outOfBounds
  else
    match s.table[i.toNat]? with
    | none => .error .outOfBounds
    | some row => .ok (getScan s.buf key row)

/-- The state after `binit`: `bcache` and `table` have static storage and are all zero;
`binit` itself only initialises the locks. -/
def binit (nbuf : Nat) : Bcache :=
  { buf := List.replicate nbuf
      { valid := 0, dev := 0, blockno := 0, refcnt := 0, ticks := 0, lock := none, data := 0 }
    table := List.replicate NBUCKET (List.replicate nbuf none) }

/-- The eviction scan of `bget`, from slot `i` on, with the current `min_tick_index` and
`min_ticks`; it returns the final `min_tick_index`. -/
def scanLoop : List Buf → Nat → Int → Nat → Int
  | [], _, idx, _ => idx
  | b :: bs, i, idx, mt =>
    if b.refcnt = 0 ∧ b.ticks < mt then scanLoop bs (i + 1) (i : Int) b.ticks
    else scanLoop bs (i + 1) idx mt

/-- The value of `min_tick_index` after the scan, started with `-1` and `min_ticks = -1`. -/
def minTickIndex (buf : List Buf) : Int := scanLoop buf 0 (-1) UINT_MAX

/-- Modelled from the spec: `acquiresleep` is defined in sleeplock.c, which is not among
the sources.  The call `acquiresleep(&b->lock)` by process `pid` on slot `k`: the lock is
exclusive and blocking, so the call returns with the lock held when the lock is free and
waits (`Stop.sleeps`) while another holder has it. -/
def acquiresleep (s : Bcache) (pid k : Nat) : Except Stop Bcache :=
  match s.buf[k]? with
  | none => .error .outOfBounds
  | some b =>
    match b.lock with
    | none => .ok { s with buf := s.buf.set k { b with lock := some pid } }
    | some _ => .error .sleeps

/-- The hit test of `bget`: `e && e->buf_value->dev == dev`. -/
def hitSlot (s : Bcache) (dev : Nat) (e : Option Nat) : Option (Nat × Buf) :=
  match e with
  | none => none
  | some k =>
    match s.buf[k]? with
    | some b => if b.dev = dev then some (k, b) else none
    | none => none

/-- The re-keying of slot `k` on a miss: `dev`, `blockno`, `valid = 0`, `refcnt = 1`. -/
def rekey (s : Bcache) (k : Nat) (b : Buf) (dev blockno : Nat) : Bcache :=
  { s with buf := s.buf.set k { b with dev := dev, blockno := blockno, valid := 0, refcnt := 1 } }

/-- The miss path of `bget`: scan, re-key, `put`, then take the sleep lock. -/
def bgetMiss (s : Bcache) (pid dev blockno : Nat) : Except Stop (Bcache × Nat) :=
  let m := minTickIndex s.buf
  if m < 0 then .error .outOfBounds
  else
    match s.buf[m.toNat]? with
    | none => .error .outOfBounds
    | some b =>
      let s1 := rekey s m.toNat b dev blockno
      match put s1 (toInt blockno) m.toNat with
      | .error e => .error e
      | .ok t =>
        match acquiresleep { s1 with table := t } pid m.toNat with
        | .error e => .error e
        | .ok s2 => .ok (s2, m.toNat)

/-- The function `bget(dev, blockno)` called by process `pid`: the new state and the slot
returned. -/
def bget (s : Bcache) (pid dev blockno : Nat) : Except Stop (Bcache × Nat) :=
  match get s (toInt blockno) with
  | .error e => .error e
  | .ok e =>
    match hitSlot s dev e with
    | some (k, b) =>
      match acquiresleep { s with buf := s.buf.set k { b with refcnt := incr b.refcnt } } pid k with
      | .error e => .error e
      | .ok s1 => .ok (s1, k)
    | none => bgetMiss s pid dev blockno

/-- The function `bread(dev, blockno)` called by process `pid`; `blk` is the contents the
disk delivers if `virtio_disk_rw(b, 0)` is invoked.  The result is the new state, the slot
returned and whether the disk read was invoked. -/
def bread (s : Bcache) (pid dev blockno blk : Nat) : Except Stop (Bcache × Nat × Bool) :=
  match bget s pid dev blockno with
  | .error e => .error e
  | .ok (s1, k) =>
    match s1.buf[k]? with
    | none => .error .outOfBounds
    | some b =>
      if b.valid = 0 then
        .ok ({ s1 with buf := s1.buf.set k { b with data := blk, valid := 1 } }, k, true)
      else .ok (s1, k, false)

/-- The function `brelse(b)` called by process `pid` on slot `k`, with `t` the value of the
tick counter `ticks` read under `tickslock`.  `holdingsleep` (sleeplock.c) is the test that
the caller is the holder of the lock, `releasesleep` frees the lock. -/
def brelse (s : Bcache) (pid k t : Nat) : Except Stop Bcache :=
  match s.buf[k]? with
  | none => .error .outOfBounds
  | some b =>
    if b.lock ≠ some pid then .error (.panics "brelse")
    else
      let r := decr b.refcnt
      .ok { s with buf := s.buf.set k { b with lock := none, refcnt := r, ticks := if r = 0 then t else b.ticks } }

/-- The function `bpin(b)` on slot `k`. -/
def bpin (s : Bcache) (k : Nat) : Except Stop Bcache :=
  match s.buf[k]? with
  | none => .error .outOfBounds
  | some b => .ok { s with buf := s.buf.set k { b with refcnt := incr b.refcnt } }

/-- The function `bunpin(b)` on slot `k`. -/
def bunpin (s : Bcache) (k : Nat) : Except Stop Bcache :=
  match s.buf[k]? with
  | none => .error .outOfBounds
  | some b => .ok { s with buf := s.buf.set k { b with refcnt := decr b.refcnt } }

/-- A completed call of the public interface, with its arguments and, for `bread`, the
slot it returned. -/
inductive Ev where
  | read (pid dev blockno blk ret : Nat)
  | release (pid k t : Nat)
  | pin (k : Nat)
  | unpin (k : Nat)
deriving DecidableEq, Repr

/-- The state after one completed call; `none` when the call does not return from `s`, or
returns another slot than the event records. -/
def after (s : Bcache) : Ev → Option Bcache
  | .read pid dev blockno blk ret =>
    match bread s pid dev blockno blk with
    | .ok (s1, k, _) => if k = ret then some s1 else none
    | .error _ => none
  | .release pid k t =>
    match brelse s pid k t with
    | .ok s1 => some s1
    | .error _ => none
  | .pin k =>
    match bpin s k with
    | .ok s1 => some s1
    | .error _ => none
  | .unpin k =>
    match bunpin s k with
    | .ok s1 => some s1
    | .error _ => none

/-- The state after a sequence of completed calls. -/
def afterAll (s : Bcache) : List Ev → Option Bcache
  | [] => some s
  | e :: es =>
    match after s e with
    | some s1 => afterAll s1 es
    | none => none

/-- The states reachable from `binit` with a pool of `nbuf` slots. -/
def Reachable (nbuf : Nat) (s : Bcache) : Prop :=
  ∃ evs, afterAll (binit nbuf) evs = some s

/-- The shape of one bucket of the index over the pool `buf`, for calls on the single
device `d`: the occupied entries come first, they reference pairwise distinct slots of the
pool, each re-keyed for device `d`, and the row has `TABLE_SIZE = NBUF` entries. -/
def RowOk (d : Nat) (buf : List Buf) (row : List (Option Nat)) : Prop :=
  ∃ (ks : List Nat) (m : Nat), row = ks.map some ++ List.replicate m none ∧ ks.Nodup ∧
    ks.length + m = buf.length ∧ ∀ k ∈ ks, ∃ b, buf[k]? = some b ∧ b.dev = d

/-- The shape of the whole index: `NBUCKET` rows, each of the shape `RowOk`. -/
def TInv (d : Nat) (s : Bcache) : Prop :=
  s.table.length = NBUCKET ∧ ∀ row ∈ s.table, RowOk d s.buf row

/-- The calls that stay on device `d`, with `uint` block numbers. -/
def oneDevice (d : Nat) : Ev → Bool
  | .read _ dev blockno _ _ => dev == d && decide (blockno < 4294967296)
  | _ => true

/-- The identities `(dev, blockno)` carried by the slots of the pool, in slot order. -/
def idents (s : Bcache) : List (Nat × Nat) := s.buf.map (fun b => (b.dev, b.blockno))

/-- The change of the pin count of slot `j` that a completed call accounts for: `+1` for a
`bread` that returned `j` and for `bpin`, `-1` for `brelse` and `bunpin`. -/
def pinDelta (j : Nat) : Ev → Int
  | .read _ _ _ _ ret => if ret = j then 1 else 0
  | .release _ k _ => if k = j then -1 else 0
  | .pin k => if k = j then 1 else 0
  | .unpin k => if k = j then -1 else 0

/-- The sum of `pinDelta j` over a sequence of completed calls. -/
def balance (j : Nat) (evs : List Ev) : Int := (evs.map (pinDelta j)).sum

/-- A lock of the cache: the spin lock `buffer_lock[i]` of bucket `i`, the pool-wide spin
lock `bcache.lock`, or the sleep lock `bcache.buf[k].lock` of slot `k`. -/
inductive Lock where
  | bucket (i : Nat)
  | pool
  | sleep (k : Nat)
deriving DecidableEq, Repr

/-- A lock event of an operation: `acquire` or `acquiresleep` of a lock, or its
`release`. -/
inductive LockEv where
  | acquire (l : Lock)
  | release (l : Lock)
deriving DecidableEq, Repr

/-- The locks held after a sequence of lock events, starting with the locks `h` held. -/
def heldFrom (h : List Lock) : List LockEv → List Lock
  | [] => h
  | .acquire l :: es => heldFrom (l :: h) es
  | .release l :: es => heldFrom (h.erase l) es

/-- The locks held after a sequence of lock events of one operation. -/
def held (tr : List LockEv) : List Lock := heldFrom [] tr

/-- The miss path of `bget` with its lock events, from `acquire(&bcache.lock)` on: the
events performed and the result.  The events stop where the call stops. -/
def bgetMissEv (s : Bcache) (pid dev blockno : Nat) :
    List LockEv × Except Stop (Bcache × Nat) :=
  let m := minTickIndex s.buf
  if m < 0 then ([.acquire .pool], .error .outOfBounds)
  else
    match s.buf[m.toNat]? with
    | none => ([.acquire .pool], .error .outOfBounds)
    | some b =>
      let s1 := rekey s m.toNat b dev blockno
      match put s1 (toInt blockno) m.toNat with
      | .error e => ([.acquire .pool], .error e)
      | .ok t =>
        ([.acquire .pool, .release .pool, .release (.bucket (blockno % NBUCKET)),
          .acquire (.sleep m.toNat)],
         match acquiresleep { s1 with table := t } pid m.toNat with
         | .error e => .error e
         | .ok s2 => .ok (s2, m.toNat))

/-- The function `bget(dev, blockno)` with its lock events: `acquire` of
`buffer_lock[blockno % NBUCKET]` first, then the hit path or the miss path.  The second
component is the result of `bget`. -/
def bgetEv (s : Bcache) (pid dev blockno : Nat) : List LockEv × Except Stop (Bcache × Nat) :=
  match get s (toInt blockno) with
  | .error e => ([.acquire (.bucket (blockno % NBUCKET))], .error e)
  | .ok e =>
    match hitSlot s dev e with
    | some (k, b) =>
      ([.acquire (.bucket (blockno % NBUCKET)), .release (.bucket (blockno % NBUCKET)),
        .acquire (.sleep k)],
       match acquiresleep { s with buf := s.buf.set k { b with refcnt := incr b.refcnt } } pid k with
       | .error e => .error e
       | .ok s1 => .ok (s1, k))
    | none =>
      (.acquire (.bucket (blockno % NBUCKET)) :: (bgetMissEv s pid dev blockno).1,
       (bgetMissEv s pid dev blockno).2)

/-- The calls that stay on device `d` and on block numbers below `2 ^ 31`. -/
def lowDevice (d : Nat) : Ev → Bool
  | .read _ dev blockno _ _ => dev == d && decide (blockno < 2147483648)
  | _ => true

/-- The calls that fill bucket 5 in a pool of 30 slots.  Slot 0 reads block 6 of device 1
and is released, so the first entry of bucket 6 references it; the blocks `5, 18, ..., 382`
of device 1, all of bucket 5, are then read into the slots `0, ..., 29`; slot 1 is released
and re-keyed for block 5 of device 2, whose `put` overwrites the entry of slot 0; slot 0 is
released. -/
def fullBucketCalls : List Ev :=
  [.read 1 1 6 0 0, .release 1 0 0, .read 1 1 5 0 0, .read 2 1 18 0 1] ++
    (List.range 28).map (fun k => Ev.read 1 1 (5 + 13 * (k + 2)) 0 (k + 2)) ++
    [.release 2 1 1, .read 2 2 5 0 1, .release 1 0 2]

/-! ## Properties of the index operations -/

theorem decr_one : decr 1 = 0 := by decide

theorem decr_zero : decr 0 = 4294967295 := by decide

theorem decr_pos (r : Nat) (h0 : 0 < r) (h1 : r ≤ 4294967296) : decr r = r - 1 := by
  unfold decr
  omega

theorem incr_lt (r : Nat) (h1 : r < 4294967295) : incr r = r + 1 := by
  unfold incr
  omega

theorem decr_incr (r : Nat) (h1 : r < 4294967296) : decr (incr r) = r := by
  unfold decr incr
  omega

theorem toUint_toInt (u : Nat) (h : u < 4294967296) : toUint (toInt u) = u := by
  unfold toUint toInt
  rw [Nat.mod_eq_of_lt h]
  split <;> omega

theorem bucketOf_toInt (u : Nat) (h : u < 2147483648) :
    bucketOf (toInt u) = ((u % 13 : Nat) : Int) := by
  unfold bucketOf toInt NBUCKET
  rw [Nat.mod_eq_of_lt (by omega), if_pos h]
  rfl

theorem hasKey_some (buf : List Buf) (key : Int) (k : Nat) :
    hasKey buf key (some k) = true ↔ ∃ b, buf[k]? = some b ∧ b.blockno = toUint key := by
  simp only [hasKey]
  split
  next b hb => simp [hb]
  next hb => simp [hb]

theorem hasKey_none (buf : List Buf) (key : Int) : hasKey buf key none = false := rfl

theorem putScan_le (buf : List Buf) (key : Int) (row : List (Option Nat)) :
    putScan buf key row ≤ row.length := by
  induction row with
  | nil => simp [putScan]
  | cons e es ih =>
    unfold putScan
    split
    · simp
    · simp
      omega

theorem putScan_stops (buf : List Buf) (key : Int) (row : List (Option Nat)) (e : Option Nat)
    (h : row[putScan buf key row]? = some e) : e = none ∨ hasKey buf key e = true := by
  induction row with
  | nil => simp at h
  | cons x xs ih =>
    unfold putScan at h
    split at h
    next hx =>
      simp at h
      subst h
      cases x with
      | none => exact Or.inl rfl
      | some k => simpa using hx
    next hx =>
      simp at h
      exact ih h

theorem putScan_before (buf : List Buf) (key : Int) (row : List (Option Nat)) (j : Nat)
    (hj : j < putScan buf key row) :
    ∃ k, row[j]? = some (some k) ∧ hasKey buf key (some k) = false := by
  induction row generalizing j with
  | nil => simp [putScan] at hj
  | cons x xs ih =>
    unfold putScan at hj
    split at hj
    next hx => omega
    next hx =>
      cases j with
      | zero =>
        cases x with
        | none => simp at hx
        | some k => exact ⟨k, by simp, by simpa using hx⟩
      | succ j =>
        have := ih j (by omega)
        simpa using this

theorem putScan_lt (buf : List Buf) (key : Int) (row : List (Option Nat))
    (hex : ∃ e ∈ row, e = none ∨ hasKey buf key e = true) :
    putScan buf key row < row.length := by
  induction row with
  | nil => simp at hex
  | cons x xs ih =>
    unfold putScan
    split
    next hx => simp
    next hx =>
      obtain ⟨e, he, hs⟩ := hex
      rcases List.mem_cons.mp he with rfl | he
      · exfalso
        apply hx
        rcases hs with rfl | hs
        · rfl
        · simp [hs]
      · have := ih ⟨e, he, hs⟩
        simp
        omega

theorem entry_insert_self (v : Nat) (t : List (List (Option Nat))) (i j : Nat)
    (row : List (Option Nat)) (hrow : t[i]? = some row) (hj : j < row.length) :
    entry (insert v t i j) i j = some (some v) := by
  have hi : i < t.length := by
    rcases List.getElem?_eq_some.mp hrow with ⟨h, -⟩
    exact h
  simp [entry, insert, hrow, List.getElem?_set_self hi, List.getElem?_set_self hj]

theorem entry_insert_other (v : Nat) (t : List (List (Option Nat))) (i j i' j' : Nat)
    (h : (i', j') ≠ (i, j)) : entry (insert v t i j) i' j' = entry t i' j' := by
  unfold insert
  cases hrow : t[i]? with
  | none => rfl
  | some row =>
    simp only [entry]
    by_cases hi : i = i'
    · subst hi
      have hj : j ≠ j' := by
        intro hj
        exact h (by rw [hj])
      have hi : i < t.length := by
        rcases List.getElem?_eq_some.mp hrow with ⟨h, -⟩
        exact h
      simp [List.getElem?_set_self hi, hrow, List.getElem?_set_ne hj]
    · simp [List.getElem?_set_ne hi]

theorem put_ok (s : Bcache) (key : Int) (v : Nat) (row : List (Option Nat))
    (hi : 0 ≤ bucketOf key) (hrow : s.table[(bucketOf key).toNat]? = some row)
    (hlt : putScan s.buf key row < row.length) :
    put s key v = .ok (insert v s.table (bucketOf key).toNat (putScan s.buf key row)) := by
  unfold put
  have hent : entry s.table (bucketOf key).toNat (putScan s.buf key row)
      = some (row[putScan s.buf key row]) := by
    simp [entry, hrow, List.getElem?_eq_getElem hlt]
  simp only [not_lt.mpr hi, if_false, hrow, afterLoop, if_pos hlt, hent]
  split
  · rfl
  · rw [if_pos (by omega)]

/-- A full bucket without the key, not the last one: `put` tests the first entry of the
next bucket; when that entry does not have the key either, entry 0 of the bucket is
overwritten. -/
theorem put_full_overwrites (s : Bcache) (key : Int) (v : Nat) (row : List (Option Nat))
    (e : Option Nat)
    (hi : 0 ≤ bucketOf key) (hrow : s.table[(bucketOf key).toNat]? = some row)
    (hfull : putScan s.buf key row = row.length)
    (hnext : entry s.table ((bucketOf key).toNat + 1) 0 = some e)
    (hno : hasKey s.buf key e = false) :
    put s key v = .ok (insert v s.table (bucketOf key).toNat 0) := by
  unfold put
  simp only [not_lt.mpr hi, if_false, hrow, afterLoop, hfull, lt_irrefl, hnext, hno]
  simp

/-- A full bucket without the key, not the last one: when the first entry of the next
bucket has the key, `put` assigns that entry and leaves the bucket of the key as it
is. -/
theorem put_full_aliases (s : Bcache) (key : Int) (v : Nat) (row : List (Option Nat))
    (e : Option Nat)
    (hi : 0 ≤ bucketOf key) (hrow : s.table[(bucketOf key).toNat]? = some row)
    (hfull : putScan s.buf key row = row.length)
    (hnext : entry s.table ((bucketOf key).toNat + 1) 0 = some e)
    (hkey : hasKey s.buf key e = true) :
    put s key v = .ok (insert v s.table ((bucketOf key).toNat + 1) 0) := by
  unfold put
  simp only [not_lt.mpr hi, if_false, hrow, afterLoop, hfull, lt_irrefl, hnext, hkey]
  simp

/-- A full bucket without the key, the last one: the entry that `put` tests lies past
the end of the table. -/
theorem put_full_last (s : Bcache) (key : Int) (v : Nat) (row : List (Option Nat))
    (hi : 0 ≤ bucketOf key) (hrow : s.table[(bucketOf key).toNat]? = some row)
    (hfull : putScan s.buf key row = row.length)
    (hnext : entry s.table ((bucketOf key).toNat + 1) 0 = none) :
    put s key v = .error .outOfBounds := by
  unfold put
  simp only [not_lt.mpr hi, if_false, hrow, afterLoop, hfull, lt_irrefl, hnext]

/-! ## The eviction scan and `bget` -/

theorem scanLoop_spec (bs : List Buf) (i : Nat) (idx : Int) (mt : Nat) :
    (scanLoop bs i idx mt = idx ∧ ∀ b ∈ bs, ¬ (b.refcnt = 0 ∧ b.ticks < mt)) ∨
    (∃ j b, bs[j]? = some b ∧ scanLoop bs i idx mt = ((i + j : Nat) : Int) ∧
      b.refcnt = 0 ∧ b.ticks < mt ∧
      (∀ (j' : Nat) (b' : Buf), bs[j']? = some b' → b'.refcnt = 0 → b.ticks ≤ b'.ticks) ∧
      (∀ (j' : Nat) (b' : Buf), j' < j → bs[j']? = some b' → b'.refcnt = 0 → b.ticks < b'.ticks)) := by
  induction bs generalizing i idx mt with
  | nil => left; simp [scanLoop]
  | cons b bs ih =>
    unfold scanLoop
    split
    next hc =>
      right
      rcases ih (i + 1) (i : Int) b.ticks with ⟨hr, hn⟩ | ⟨j, b1, hj, hr, hf, hlt, hmin, hstr⟩
      · refine ⟨0, b, by simp, by simpa using hr, hc.1, hc.2, ?_, ?_⟩
        · intro j' b' hj' hf'
          cases j' with
          | zero => simp at hj'; subst hj'; exact le_refl _
          | succ j' =>
            simp at hj'
            have hm : b' ∈ bs := List.getElem?_mem hj'
            have := hn b' hm
            by_contra hlt
            exact this ⟨hf', by omega⟩
        · intro j' b' hj'
          omega
      · refine ⟨j + 1, b1, by simpa using hj, ?_, hf, by omega, ?_, ?_⟩
        · rw [hr]
          congr 1
          omega
        · intro j' b' hj' hf'
          cases j' with
          | zero => simp at hj'; subst hj'; omega
          | succ j' =>
            simp at hj'
            exact hmin j' b' hj' hf'
        · intro j' b' hlt' hj' hf'
          cases j' with
          | zero => simp at hj'; subst hj'; omega
          | succ j' =>
            simp at hj'
            exact hstr j' b' (by omega) hj' hf'
    next hc =>
      rcases ih (i + 1) idx mt with ⟨hr, hn⟩ | ⟨j, b1, hj, hr, hf, hlt, hmin, hstr⟩
      · left
        refine ⟨hr, ?_⟩
        intro b' hb'
        rcases List.mem_cons.mp hb' with rfl | hb'
        · exact hc
        · exact hn b' hb'
      · right
        have hb : b.refcnt = 0 → mt ≤ b.ticks := by
          intro h0
          by_contra hlt'
          exact hc ⟨h0, by omega⟩
        refine ⟨j + 1, b1, by simpa using hj, ?_, hf, hlt, ?_, ?_⟩
        · rw [hr]
          congr 1
          omega
        · intro j' b' hj' hf'
          cases j' with
          | zero =>
            simp at hj'; subst hj'
            have := hb hf'
            omega
          | succ j' =>
            simp at hj'
            exact hmin j' b' hj' hf'
        · intro j' b' hlt' hj' hf'
          cases j' with
          | zero =>
            simp at hj'; subst hj'
            have := hb hf'
            omega
          | succ j' =>
            simp at hj'
            exact hstr j' b' (by omega) hj' hf'

theorem minTickIndex_cases (buf : List Buf) :
    (minTickIndex buf = -1 ∧ ∀ b ∈ buf, ¬ (b.refcnt = 0 ∧ b.ticks < UINT_MAX)) ∨
    (∃ v b, buf[v]? = some b ∧ minTickIndex buf = ((v : Nat) : Int) ∧
      b.refcnt = 0 ∧ b.ticks < UINT_MAX ∧
      (∀ (j' : Nat) (b' : Buf), buf[j']? = some b' → b'.refcnt = 0 → b.ticks ≤ b'.ticks) ∧
      (∀ (j' : Nat) (b' : Buf), j' < v → buf[j']? = some b' → b'.refcnt = 0 → b.ticks < b'.ticks)) := by
  unfold minTickIndex
  rcases scanLoop_spec buf 0 (-1) UINT_MAX with h | ⟨j, b, hj, hr, h⟩
  · exact Or.inl h
  · exact Or.inr ⟨j, b, hj, by simpa using hr, h⟩

theorem minTickIndex_eq (buf : List Buf) (v : Nat) (h : minTickIndex buf = (v : Int)) :
    ∃ b, buf[v]? = some b ∧ b.refcnt = 0 ∧ b.ticks < UINT_MAX ∧
      (∀ (j' : Nat) (b' : Buf), buf[j']? = some b' → b'.refcnt = 0 → b.ticks ≤ b'.ticks) ∧
      (∀ (j' : Nat) (b' : Buf), j' < v → buf[j']? = some b' → b'.refcnt = 0 → b.ticks < b'.ticks) := by
  rcases minTickIndex_cases buf with ⟨h1, -⟩ | ⟨w, b, hw, hr, h1⟩
  · omega
  · have : w = v := by omega
    subst this
    exact ⟨b, hw, h1⟩

theorem acquiresleep_ok (s : Bcache) (pid k : Nat) (s1 : Bcache)
    (h : acquiresleep s pid k = .ok s1) :
    ∃ b, s.buf[k]? = some b ∧ b.lock = none ∧
      s1 = { s with buf := s.buf.set k { b with lock := some pid } } := by
  unfold acquiresleep at h
  split at h
  · cases h
  next b hb =>
    split at h
    next hl =>
      injection h with h
      exact ⟨b, hb, hl, h.symm⟩
    · cases h

theorem acquiresleep_free (s : Bcache) (pid k : Nat) (b : Buf) (hb : s.buf[k]? = some b)
    (hl : b.lock = none) :
    acquiresleep s pid k = .ok { s with buf := s.buf.set k { b with lock := some pid } } := by
  unfold acquiresleep
  simp only [hb, hl]

theorem hitSlot_some (s : Bcache) (dev : Nat) (e : Option Nat) (k : Nat) (b : Buf)
    (h : hitSlot s dev e = some (k, b)) : e = some k ∧ s.buf[k]? = some b ∧ b.dev = dev := by
  unfold hitSlot at h
  split at h
  · cases h
  next k' =>
    split at h
    next b' hb' =>
      split at h
      next hd =>
        simp at h
        obtain ⟨rfl, rfl⟩ := h
        exact ⟨rfl, hb', hd⟩
      · cases h
    · cases h

theorem getElem?_lt_length {α : Type} (l : List α) (k : Nat) (a : α) (h : l[k]? = some a) :
    k < l.length := by
  rcases List.getElem?_eq_some.mp h with ⟨h, -⟩
  exact h

theorem bgetMiss_ok (s : Bcache) (pid dev bn : Nat) (s1 : Bcache) (k : Nat)
    (h : bgetMiss s pid dev bn = .ok (s1, k)) :
    ∃ b t, s.buf[k]? = some b ∧ b.lock = none ∧ minTickIndex s.buf = (k : Int) ∧
      put (rekey s k b dev bn) (toInt bn) k = .ok t ∧
      s1 = { buf := s.buf.set k { b with dev := dev, blockno := bn, valid := 0, refcnt := 1,
                                          lock := some pid },
             table := t } := by
  unfold bgetMiss at h
  simp only at h
  split at h
  · cases h
  next hm =>
    split at h
    · cases h
    next b hb =>
      split at h
      · cases h
      next t ht =>
        split at h
        · cases h
        next s2 hs2 =>
          injection h with h
          injection h with h1 h2
          subst h2
          have hk : ((minTickIndex s.buf).toNat : Int) = minTickIndex s.buf :=
            Int.toNat_of_nonneg (by omega)
          obtain ⟨b2, hb2, hl2, hs⟩ := acquiresleep_ok _ _ _ _ hs2
          have hlen := getElem?_lt_length _ _ _ hb
          simp only [rekey, List.getElem?_set_self hlen, Option.some.injEq] at hb2
          subst hb2
          refine ⟨b, t, hb, hl2, hk.symm, ht, ?_⟩
          rw [← h1, hs]
          simp [rekey, List.set_set]

theorem bgetMiss_intro (s : Bcache) (pid dev bn k : Nat) (b : Buf) (t : List (List (Option Nat)))
    (hm : minTickIndex s.buf = (k : Int)) (hb : s.buf[k]? = some b) (hl : b.lock = none)
    (hp : put (rekey s k b dev bn) (toInt bn) k = .ok t) :
    bgetMiss s pid dev bn =
      .ok ({ buf := s.buf.set k { b with dev := dev, blockno := bn, valid := 0, refcnt := 1,
                                         lock := some pid },
             table := t }, k) := by
  unfold bgetMiss
  have hlen := getElem?_lt_length _ _ _ hb
  simp only [hm, Int.toNat_ofNat, hb, hp]
  rw [if_neg (by omega)]
  rw [acquiresleep_free _ pid k { b with dev := dev, blockno := bn, valid := 0, refcnt := 1 }
    (by simp [rekey, List.getElem?_set_self hlen]) hl]
  simp [rekey, List.set_set]

theorem bget_cases (s : Bcache) (pid dev bn : Nat) (s1 : Bcache) (k : Nat)
    (h : bget s pid dev bn = .ok (s1, k)) :
    ∃ b, s.buf[k]? = some b ∧ b.lock = none ∧
      ((get s (toInt bn) = .ok (some k) ∧ b.dev = dev ∧
          s1 = { s with buf := s.buf.set k { b with refcnt := incr b.refcnt, lock := some pid } }) ∨
       ((∃ e, get s (toInt bn) = .ok e ∧ hitSlot s dev e = none) ∧
          minTickIndex s.buf = (k : Int) ∧
          ∃ t, put (rekey s k b dev bn) (toInt bn) k = .ok t ∧
            s1 = { buf := s.buf.set k { b with dev := dev, blockno := bn, valid := 0,
                                               refcnt := 1, lock := some pid },
                   table := t })) := by
  unfold bget at h
  split at h
  · cases h
  next e he =>
    split at h
    next k' b hhit =>
      obtain ⟨rfl, hb, hd⟩ := hitSlot_some _ _ _ _ _ hhit
      split at h
      · cases h
      next s2 hs2 =>
        injection h with h
        injection h with h1 h2
        subst h2
        obtain ⟨b2, hb2, hl2, hs⟩ := acquiresleep_ok _ _ _ _ hs2
        have hlen := getElem?_lt_length _ _ _ hb
        simp only [List.getElem?_set_self hlen, Option.some.injEq] at hb2
        subst hb2
        refine ⟨b, hb, hl2, Or.inl ⟨he, hd, ?_⟩⟩
        rw [← h1, hs]
        simp [List.set_set]
    next hhit =>
      obtain ⟨b, t, hb, hl, hm, hp, hs⟩ := bgetMiss_ok _ _ _ _ _ _ h
      exact ⟨b, hb, hl, Or.inr ⟨⟨e, he, hhit⟩, hm, t, hp, hs⟩⟩

theorem bget_hit (s : Bcache) (pid dev bn k : Nat) (b : Buf)
    (hg : get s (toInt bn) = .ok (some k)) (hb : s.buf[k]? = some b) (hd : b.dev = dev)
    (hl : b.lock = none) :
    bget s pid dev bn =
      .ok ({ s with buf := s.buf.set k { b with refcnt := incr b.refcnt, lock := some pid } }, k) := by
  subst hd
  unfold bget
  have hlen := getElem?_lt_length _ _ _ hb
  simp only [hg, hitSlot, hb, if_true]
  rw [acquiresleep_free _ pid k { b with refcnt := incr b.refcnt }
    (by simp [List.getElem?_set_self hlen]) hl]
  simp [List.set_set]

theorem bget_miss (s : Bcache) (pid dev bn k : Nat) (b : Buf) (e : Option Nat)
    (t : List (List (Option Nat)))
    (hg : get s (toInt bn) = .ok e) (hh : hitSlot s dev e = none)
    (hm : minTickIndex s.buf = (k : Int)) (hb : s.buf[k]? = some b) (hl : b.lock = none)
    (hp : put (rekey s k b dev bn) (toInt bn) k = .ok t) :
    bget s pid dev bn =
      .ok ({ buf := s.buf.set k { b with dev := dev, blockno := bn, valid := 0, refcnt := 1,
                                         lock := some pid },
             table := t }, k) := by
  unfold bget
  simp only [hg, hh]
  exact bgetMiss_intro s pid dev bn k b t hm hb hl hp

/-! ## The public operations -/

theorem bread_cases (s : Bcache) (pid dev bn blk : Nat) (s1 : Bcache) (k : Nat) (rd : Bool)
    (h : bread s pid dev bn blk = .ok (s1, k, rd)) :
    ∃ b, s.buf[k]? = some b ∧ b.lock = none ∧
      ((get s (toInt bn) = .ok (some k) ∧ b.dev = dev ∧ rd = decide (b.valid = 0) ∧
          s1.table = s.table ∧
          s1.buf = s.buf.set k { b with refcnt := incr b.refcnt, lock := some pid,
                                        valid := if b.valid = 0 then 1 else b.valid,
                                        data := if b.valid = 0 then blk else b.data }) ∨
       ((∃ e, get s (toInt bn) = .ok e ∧ hitSlot s dev e = none) ∧
          minTickIndex s.buf = (k : Int) ∧ rd = true ∧
          put (rekey s k b dev bn) (toInt bn) k = .ok s1.table ∧
          s1.buf = s.buf.set k { b with dev := dev, blockno := bn, valid := 1, refcnt := 1,
                                        lock := some pid, data := blk })) := by
  unfold bread at h
  split at h
  · cases h
  next s2 k2 hg =>
    obtain ⟨b, hb, hl, hc⟩ := bget_cases _ _ _ _ _ _ hg
    have hlen := getElem?_lt_length _ _ _ hb
    rcases hc with ⟨hget, hd, hs2⟩ | ⟨hmiss, hm, t, hp, hs2⟩
    · subst hs2
      simp only [List.getElem?_set_self hlen] at h
      split at h
      next hv =>
        injection h with h
        injection h with h1 h2
        injection h2 with h2 h3
        subst h2
        refine ⟨b, hb, hl, Or.inl ⟨hget, hd, by simp [hv, ← h3], by rw [← h1], ?_⟩⟩
        rw [← h1]
        simp [List.set_set, hv]
      next hv =>
        injection h with h
        injection h with h1 h2
        injection h2 with h2 h3
        subst h2
        refine ⟨b, hb, hl, Or.inl ⟨hget, hd, by simp [hv, ← h3], by rw [← h1], ?_⟩⟩
        rw [← h1]
        simp [hv]
    · subst hs2
      simp only [List.getElem?_set_self hlen, if_true] at h
      injection h with h
      injection h with h1 h2
      injection h2 with h2 h3
      subst h2
      refine ⟨b, hb, hl, Or.inr ⟨hmiss, hm, h3.symm, by rw [← h1]; exact hp, ?_⟩⟩
      rw [← h1]
      simp [List.set_set]

theorem bread_hit (s : Bcache) (pid dev bn blk k : Nat) (b : Buf)
    (hg : get s (toInt bn) = .ok (some k)) (hb : s.buf[k]? = some b) (hd : b.dev = dev)
    (hl : b.lock = none) (hv : b.valid ≠ 0) :
    bread s pid dev bn blk =
      .ok ({ s with buf := s.buf.set k { b with refcnt := incr b.refcnt, lock := some pid } },
           k, false) := by
  unfold bread
  have hlen := getElem?_lt_length _ _ _ hb
  rw [bget_hit s pid dev bn k b hg hb hd hl]
  simp [List.getElem?_set_self hlen, hv]

theorem bread_miss (s : Bcache) (pid dev bn blk k : Nat) (b : Buf) (e : Option Nat)
    (t : List (List (Option Nat)))
    (hg : get s (toInt bn) = .ok e) (hh : hitSlot s dev e = none)
    (hm : minTickIndex s.buf = (k : Int)) (hb : s.buf[k]? = some b) (hl : b.lock = none)
    (hp : put (rekey s k b dev bn) (toInt bn) k = .ok t) :
    bread s pid dev bn blk =
      .ok ({ buf := s.buf.set k { b with dev := dev, blockno := bn, valid := 1, refcnt := 1,
                                         lock := some pid, data := blk },
             table := t }, k, true) := by
  unfold bread
  have hlen := getElem?_lt_length _ _ _ hb
  rw [bget_miss s pid dev bn k b e t hg hh hm hb hl hp]
  simp [List.getElem?_set_self hlen, List.set_set]

theorem brelse_ok (s : Bcache) (pid k t : Nat) (s1 : Bcache) (h : brelse s pid k t = .ok s1) :
    ∃ b, s.buf[k]? = some b ∧ b.lock = some pid ∧ s1.table = s.table ∧
      s1.buf = s.buf.set k { b with lock := none, refcnt := decr b.refcnt,
                                    ticks := if decr b.refcnt = 0 then t else b.ticks } := by
  unfold brelse at h
  split at h
  · cases h
  next b hb =>
    split at h
    · cases h
    next hl =>
      injection h with h
      refine ⟨b, hb, by simpa using hl, by rw [← h], by rw [← h]⟩

theorem brelse_held (s : Bcache) (pid k t : Nat) (b : Buf) (hb : s.buf[k]? = some b)
    (hl : b.lock = some pid) :
    brelse s pid k t =
      .ok { s with buf := s.buf.set k { b with lock := none, refcnt := decr b.refcnt,
                                               ticks := if decr b.refcnt = 0 then t else b.ticks } } := by
  unfold brelse
  simp [hb, hl]

theorem bpin_ok (s : Bcache) (k : Nat) (s1 : Bcache) (h : bpin s k = .ok s1) :
    ∃ b, s.buf[k]? = some b ∧ s1.table = s.table ∧
      s1.buf = s.buf.set k { b with refcnt := incr b.refcnt } := by
  unfold bpin at h
  split at h
  · cases h
  next b hb =>
    injection h with h
    exact ⟨b, hb, by rw [← h], by rw [← h]⟩

theorem bunpin_ok (s : Bcache) (k : Nat) (s1 : Bcache) (h : bunpin s k = .ok s1) :
    ∃ b, s.buf[k]? = some b ∧ s1.table = s.table ∧
      s1.buf = s.buf.set k { b with refcnt := decr b.refcnt } := by
  unfold bunpin at h
  split at h
  · cases h
  next b hb =>
    injection h with h
    exact ⟨b, hb, by rw [← h], by rw [← h]⟩

/-! ## The shape of the index on a single device -/

theorem mem_of_nodup_full (ks : List Nat) (n : Nat) (hn : ks.Nodup) (hlt : ∀ k ∈ ks, k < n)
    (hlen : ks.length = n) (v : Nat) (hv : v < n) : v ∈ ks := by
  have hsub : ks.toFinset ⊆ Finset.range n := by
    intro k hk
    simp only [List.mem_toFinset] at hk
    simpa using hlt k hk
  have hcard : ks.toFinset.card = n := by
    rw [List.toFinset_card_of_nodup hn, hlen]
  have heq : ks.toFinset = Finset.range n :=
    Finset.eq_of_subset_of_card_le hsub (by simp [hcard])
  have : v ∈ ks.toFinset := by
    rw [heq]
    simpa using hv
  simpa using this

theorem RowOk_mono (d : Nat) (buf buf1 : List Buf) (row : List (Option Nat))
    (hlen : buf1.length = buf.length)
    (hdev : ∀ (k : Nat) (b : Buf), buf[k]? = some b → b.dev = d → ∃ b1, buf1[k]? = some b1 ∧ b1.dev = d)
    (h : RowOk d buf row) : RowOk d buf1 row := by
  obtain ⟨ks, m, hrow, hnd, hl, hk⟩ := h
  refine ⟨ks, m, hrow, hnd, by omega, ?_⟩
  intro k hkm
  obtain ⟨b, hb, hbd⟩ := hk k hkm
  exact hdev k b hb hbd

theorem getElem?_set_dev (buf : List Buf) (v : Nat) (b1 : Buf) (d : Nat)
    (h1 : b1.dev = d ∨ ∃ b, buf[v]? = some b ∧ b1.dev = b.dev)
    (k : Nat) (b : Buf) (hb : buf[k]? = some b) (hd : b.dev = d) :
    ∃ b2, (buf.set v b1)[k]? = some b2 ∧ b2.dev = d := by
  by_cases hkv : v = k
  · subst hkv
    have hlen := getElem?_lt_length _ _ _ hb
    refine ⟨b1, List.getElem?_set_self hlen, ?_⟩
    rcases h1 with h1 | ⟨b0, hb0, h1⟩
    · exact h1
    · rw [hb] at hb0
      injection hb0 with hb0
      rw [h1, ← hb0, hd]
  · exact ⟨b, by rw [List.getElem?_set_ne hkv]; exact hb, hd⟩

theorem TInv_set (d : Nat) (s : Bcache) (v : Nat) (b1 : Buf) (buf1 : List Buf)
    (t1 : List (List (Option Nat)))
    (h : TInv d s) (hbuf : buf1 = s.buf.set v b1) (ht : t1 = s.table)
    (h1 : b1.dev = d ∨ ∃ b, s.buf[v]? = some b ∧ b1.dev = b.dev) :
    TInv d { buf := buf1, table := t1 } := by
  subst hbuf ht
  refine ⟨h.1, ?_⟩
  intro row hrow
  exact RowOk_mono d s.buf _ row (by simp) (getElem?_set_dev s.buf v b1 d h1) (h.2 row hrow)

theorem TInv_binit (d n : Nat) : TInv d (binit n) := by
  refine ⟨by simp [binit], ?_⟩
  intro row hrow
  simp only [binit] at hrow
  have := List.eq_of_mem_replicate hrow
  subst this
  exact ⟨[], n, by simp, List.nodup_nil, by simp [binit], by simp⟩

theorem getScan_none (buf : List Buf) (key : Int) (row : List (Option Nat))
    (h : getScan buf key row = none) : ∀ e ∈ row, hasKey buf key e = false := by
  induction row with
  | nil => simp
  | cons x xs ih =>
    unfold getScan at h
    split at h
    next hx =>
      subst h
      simp [hasKey] at hx
    next hx =>
      intro e he
      rcases List.mem_cons.mp he with rfl | he
      · simpa using hx
      · exact ih h e he

theorem getScan_some (buf : List Buf) (key : Int) (row : List (Option Nat)) (k : Nat)
    (h : getScan buf key row = some k) : some k ∈ row ∧ hasKey buf key (some k) = true := by
  induction row with
  | nil => simp [getScan] at h
  | cons x xs ih =>
    unfold getScan at h
    split at h
    next hx =>
      subst h
      exact ⟨List.mem_cons_self _ _, hx⟩
    next hx =>
      obtain ⟨h1, h2⟩ := ih h
      exact ⟨List.mem_cons_of_mem _ h1, h2⟩

theorem getScan_of_forall (buf : List Buf) (key : Int) (row : List (Option Nat))
    (h : ∀ e ∈ row, hasKey buf key e = false) : getScan buf key row = none := by
  induction row with
  | nil => rfl
  | cons x xs ih =>
    unfold getScan
    rw [if_neg (by simp [h x (List.mem_cons_self _ _)])]
    exact ih (fun e he => h e (List.mem_cons_of_mem _ he))

theorem get_row (s : Bcache) (key : Int) (row : List (Option Nat))
    (hi : 0 ≤ bucketOf key) (hrow : s.table[(bucketOf key).toNat]? = some row) :
    get s key = .ok (getScan s.buf key row) := by
  unfold get
  simp only [hrow]
  rw [if_neg (by omega)]

theorem get_ok_nonneg (s : Bcache) (key : Int) (e : Option Nat) (h : get s key = .ok e) :
    0 ≤ bucketOf key := by
  unfold get at h
  by_contra hneg
  simp only [if_pos (not_le.mp hneg)] at h
  cases h

theorem bucketOf_lt (key : Int) : bucketOf key < 13 := by
  unfold bucketOf NBUCKET
  exact Int.tmod_lt_of_pos key (by decide)

theorem bucketOf_toInt_nonneg (u : Nat) (h : u < 2147483648) : 0 ≤ bucketOf (toInt u) := by
  rw [bucketOf_toInt u h]
  omega

theorem TInv_row (d : Nat) (s : Bcache) (h : TInv d s) (key : Int) (hi : 0 ≤ bucketOf key) :
    ∃ row, s.table[(bucketOf key).toNat]? = some row ∧ RowOk d s.buf row := by
  have hlt : (bucketOf key).toNat < s.table.length := by
    rw [h.1]
    unfold NBUCKET
    have := bucketOf_lt key
    omega
  exact ⟨s.table[(bucketOf key).toNat], List.getElem?_eq_getElem hlt,
    h.2 _ (List.getElem_mem hlt)⟩

/-- On a single device a lookup that is not a hit finds no entry with the key at all. -/
theorem miss_no_key (d : Nat) (s : Bcache) (h : TInv d s) (bn : Nat)
    (e : Option Nat) (hg : get s (toInt bn) = .ok e) (hh : hitSlot s d e = none)
    (row : List (Option Nat)) (hrow : s.table[(bucketOf (toInt bn)).toNat]? = some row) :
    ∀ x ∈ row, hasKey s.buf (toInt bn) x = false := by
  rw [get_row s (toInt bn) row (get_ok_nonneg s _ e hg) hrow] at hg
  injection hg with hg
  cases e with
  | none => exact getScan_none _ _ _ hg
  | some k =>
    exfalso
    obtain ⟨hmem, -⟩ := getScan_some _ _ _ _ hg
    have hr : RowOk d s.buf row := h.2 row (List.getElem?_mem hrow)
    obtain ⟨ks, m, hrw, -, -, hk⟩ := hr
    have hkm : k ∈ ks := by
      rw [hrw] at hmem
      simpa using hmem
    obtain ⟨b, hb, hbd⟩ := hk k hkm
    simp [hitSlot, hb, hbd] at hh

theorem putScan_append (buf : List Buf) (key : Int) (l1 l2 : List (Option Nat))
    (h : ∀ e ∈ l1, e.isNone = false ∧ hasKey buf key e = false) :
    putScan buf key (l1 ++ l2) = l1.length + putScan buf key l2 := by
  induction l1 with
  | nil => simp
  | cons x xs ih =>
    have hx := h x (List.mem_cons_self _ _)
    have ih1 := ih (fun e he => h e (List.mem_cons_of_mem _ he))
    have h1 : putScan buf key (x :: (xs ++ l2)) = putScan buf key (xs ++ l2) + 1 := by
      simp [putScan, hx.1, hx.2]
    rw [List.cons_append, h1, ih1, List.length_cons]
    omega

theorem hasKey_set_self (buf : List Buf) (v bn : Nat) (b1 : Buf) (hv : v < buf.length)
    (hbn : bn < 4294967296) (hb1 : b1.blockno = bn) :
    hasKey (buf.set v b1) (toInt bn) (some v) = true := by
  rw [hasKey_some]
  exact ⟨b1, List.getElem?_set_self hv, by rw [toUint_toInt bn hbn, hb1]⟩

theorem hasKey_set_other (buf : List Buf) (v k : Nat) (b1 : Buf) (key : Int) (hk : k ≠ v) :
    hasKey (buf.set v b1) key (some k) = hasKey buf key (some k) := by
  simp only [hasKey]
  rw [List.getElem?_set_ne (Ne.symm hk)]

theorem set_eq_self_of_getElem? {α : Type} (l : List α) (j : Nat) (a : α) (h : l[j]? = some a) :
    l.set j a = l := by
  apply List.ext_getElem?
  intro i
  by_cases hij : j = i
  · subst hij
    rw [List.getElem?_set_self (getElem?_lt_length _ _ _ h), h]
  · rw [List.getElem?_set_ne hij]

theorem mem_insert_rows (v : Nat) (t : List (List (Option Nat))) (i j : Nat)
    (row : List (Option Nat)) (hrow : t[i]? = some row) (r : List (Option Nat))
    (hr : r ∈ insert v t i j) : r = row.set j (some v) ∨ r ∈ t := by
  simp only [insert, hrow] at hr
  rcases List.mem_or_eq_of_mem_set hr with h | h
  · exact Or.inr h
  · exact Or.inl h

theorem length_insert (v : Nat) (t : List (List (Option Nat))) (i j : Nat) :
    (insert v t i j).length = t.length := by
  unfold insert
  split <;> simp

/-- On a single device the `put` of a miss succeeds and keeps the shape of the index: the
victim either is already referenced in the bucket, at the entry that `put` rewrites, or
the bucket has an empty entry left. -/
theorem put_rekeyed (d : Nat) (s : Bcache) (h : TInv d s) (bn : Nat) (hbn : bn < 4294967296)
    (hi : 0 ≤ bucketOf (toInt bn))
    (v : Nat) (b : Buf) (hb : s.buf[v]? = some b) (row : List (Option Nat))
    (hrow : s.table[(bucketOf (toInt bn)).toNat]? = some row)
    (hno : ∀ x ∈ row, hasKey s.buf (toInt bn) x = false) :
    ∃ t, put (rekey s v b d bn) (toInt bn) v = .ok t ∧ t.length = NBUCKET ∧
      (∀ r ∈ t, RowOk d (rekey s v b d bn).buf r) ∧
      (∀ r ∈ t, ∀ k, some k ∈ r → k = v ∨ ∃ r0 ∈ s.table, some k ∈ r0) ∧
      putScan (rekey s v b d bn).buf (toInt bn) row < row.length := by
  have hv := getElem?_lt_length _ _ _ hb
  have hrowmem : row ∈ s.table := List.getElem?_mem hrow
  obtain ⟨ks, m, hrw, hnd, hlen, hk⟩ := h.2 row hrowmem
  have hrow1 : (rekey s v b d bn).table[(bucketOf (toInt bn)).toNat]? = some row := by
    simpa [rekey] using hrow
  have hbuf1 : (rekey s v b d bn).buf
      = s.buf.set v { b with dev := d, blockno := bn, valid := 0, refcnt := 1 } := rfl
  have hother : ∀ r ∈ s.table, RowOk d (rekey s v b d bn).buf r := by
    intro r hr
    exact RowOk_mono d s.buf _ r (by simp [rekey])
      (getElem?_set_dev s.buf v _ d (Or.inl rfl)) (h.2 r hr)
  have hkey : ∀ k ∈ ks, k ≠ v → hasKey (rekey s v b d bn).buf (toInt bn) (some k) = false := by
    intro k hkm hkv
    rw [hbuf1, hasKey_set_other _ _ _ _ _ hkv]
    apply hno
    rw [hrw]
    simp [hkm]
  have hself : hasKey (rekey s v b d bn).buf (toInt bn) (some v) = true :=
    hasKey_set_self _ _ _ _ hv hbn rfl
  by_cases hmem : v ∈ ks
  · obtain ⟨pre, post, hks⟩ := List.append_of_mem hmem
    have hvpre : v ∉ pre := by
      intro hvp
      rw [hks] at hnd
      have := (List.nodup_append.mp hnd).2.2
      exact this hvp (List.mem_cons_self _ _) 
    have hscan : putScan (rekey s v b d bn).buf (toInt bn) row = pre.length := by
      rw [hrw, hks]
      simp only [List.map_append, List.map_cons, List.append_assoc, List.cons_append]
      rw [putScan_append]
      · simp [putScan, hself]
      · intro e he
        obtain ⟨k, hkp, rfl⟩ := List.mem_map.mp he
        refine ⟨rfl, hkey k ?_ ?_⟩
        · rw [hks]
          simp [hkp]
        · rintro rfl
          exact hvpre hkp
    have hlt : putScan (rekey s v b d bn).buf (toInt bn) row < row.length := by
      rw [hscan, hrw, hks]
      simp
    have hget : row[pre.length]? = some (some v) := by
      rw [hrw, hks]
      simp only [List.map_append, List.map_cons, List.append_assoc, List.cons_append]
      rw [List.getElem?_append_right (by simp)]
      simp
    refine ⟨_, put_ok _ _ v row hi hrow1 hlt, ?_, ?_, ?_, hlt⟩
    · rw [length_insert]
      exact h.1
    · intro r hr
      rcases mem_insert_rows _ _ _ _ row hrow1 r hr with rfl | hr
      · rw [hscan, set_eq_self_of_getElem? _ _ _ hget]
        exact hother row hrowmem
      · exact hother r hr
    · intro r hr k hkr
      rcases mem_insert_rows _ _ _ _ row hrow1 r hr with rfl | hr
      · rw [hscan, set_eq_self_of_getElem? _ _ _ hget] at hkr
        exact Or.inr ⟨row, hrowmem, hkr⟩
      · exact Or.inr ⟨r, hr, hkr⟩
  · have hscan0 : putScan (rekey s v b d bn).buf (toInt bn) row
        = ks.length + putScan (rekey s v b d bn).buf (toInt bn) (List.replicate m none) := by
      rw [hrw, putScan_append]
      · simp
      · intro e he
        obtain ⟨k, hkp, rfl⟩ := List.mem_map.mp he
        refine ⟨rfl, hkey k hkp ?_⟩
        rintro rfl
        exact hmem hkp
    have hm : m ≠ 0 := by
      intro hm0
      apply hmem
      apply mem_of_nodup_full ks s.buf.length hnd _ (by omega) v hv
      intro k hkm
      obtain ⟨b0, hb0, -⟩ := hk k hkm
      exact getElem?_lt_length _ _ _ hb0
    obtain ⟨m1, rfl⟩ := Nat.exists_eq_succ_of_ne_zero hm
    have hscan : putScan (rekey s v b d bn).buf (toInt bn) row = ks.length := by
      rw [hscan0]
      simp [List.replicate_succ, putScan]
    have hlt : putScan (rekey s v b d bn).buf (toInt bn) row < row.length := by
      rw [hscan, hrw]
      simp
    have hnew : row.set ks.length (some v)
        = (ks ++ [v]).map some ++ List.replicate m1 none := by
      rw [hrw]
      rw [List.set_append_right _ _ (by simp)]
      simp [List.replicate_succ]
    have hrowok : RowOk d (rekey s v b d bn).buf (row.set ks.length (some v)) := by
      refine ⟨ks ++ [v], m1, hnew, ?_, ?_, ?_⟩
      · rw [List.nodup_append]
        refine ⟨hnd, List.nodup_singleton v, ?_⟩
        intro a ha hb
        simp at hb
        subst hb
        exact hmem ha
      · simp [rekey]
        omega
      · intro k hkm
        rcases List.mem_append.mp hkm with hkm | hkm
        · obtain ⟨b0, hb0, hd0⟩ := hk k hkm
          exact getElem?_set_dev s.buf v _ d (Or.inl rfl) k b0 hb0 hd0
        · simp at hkm
          subst hkm
          exact ⟨_, List.getElem?_set_self hv, rfl⟩
    refine ⟨_, put_ok _ _ v row hi hrow1 hlt, ?_, ?_, ?_, hlt⟩
    · rw [length_insert]
      exact h.1
    · intro r hr
      rcases mem_insert_rows _ _ _ _ row hrow1 r hr with rfl | hr
      · rw [hscan]
        exact hrowok
      · exact hother r hr
    · intro r hr k hkr
      rcases mem_insert_rows _ _ _ _ row hrow1 r hr with rfl | hr
      · rw [hscan, hnew] at hkr
        simp at hkr
        rcases hkr with hkr | hkr
        · refine Or.inr ⟨row, hrowmem, ?_⟩
          rw [hrw]
          simp [hkr]
        · exact Or.inl hkr
      · exact Or.inr ⟨r, hr, hkr⟩

theorem rows_rekey_final (d : Nat) (s : Bcache) (v : Nat) (b b1 : Buf) (bn : Nat)
    (hb : s.buf[v]? = some b) (hd : b1.dev = d) (t : List (List (Option Nat)))
    (h : ∀ r ∈ t, RowOk d (rekey s v b d bn).buf r) :
    ∀ r ∈ t, RowOk d (s.buf.set v b1) r := by
  have hv := getElem?_lt_length _ _ _ hb
  intro r hr
  refine RowOk_mono d (rekey s v b d bn).buf _ r (by simp [rekey]) ?_ (h r hr)
  intro k b0 hb0 hd0
  by_cases hkv : v = k
  · subst hkv
    exact ⟨b1, List.getElem?_set_self hv, hd⟩
  · refine ⟨b0, ?_, hd0⟩
    rw [List.getElem?_set_ne hkv]
    simpa [rekey, List.getElem?_set_ne hkv] using hb0

theorem TInv_after (d : Nat) (s : Bcache) (ev : Ev) (s1 : Bcache) (h : TInv d s)
    (hd : oneDevice d ev = true) (ha : after s ev = some s1) : TInv d s1 := by
  cases ev with
  | read pid dev bn blk ret =>
    simp only [oneDevice, Bool.and_eq_true, beq_iff_eq, decide_eq_true_eq] at hd
    obtain ⟨rfl, hbn⟩ := hd
    simp only [after] at ha
    split at ha
    next s2 k rd hbr =>
      split at ha
      next hk =>
        injection ha with ha
        subst ha hk
        obtain ⟨b, hb, hl, hc⟩ := bread_cases _ _ _ _ _ _ _ _ hbr
        rcases hc with ⟨-, hdev, -, ht, hbuf⟩ | ⟨⟨e, hg, hh⟩, hm, -, hp, hbuf⟩
        · exact TInv_set dev s k _ s2.buf s2.table h hbuf ht (Or.inr ⟨b, hb, rfl⟩)
        · have hi := get_ok_nonneg s _ e hg
          obtain ⟨row, hrow, -⟩ := TInv_row dev s h (toInt bn) hi
          have hno := miss_no_key dev s h bn e hg hh row hrow
          obtain ⟨t, hpt, htl, hrows, -, -⟩ := put_rekeyed dev s h bn hbn hi k b hb row hrow hno
          rw [hp] at hpt
          injection hpt with hpt
          subst hpt
          refine ⟨htl, ?_⟩
          rw [hbuf]
          exact rows_rekey_final dev s k b _ bn hb rfl _ hrows
      · cases ha
    · cases ha
  | release pid k t =>
    simp only [after] at ha
    split at ha
    next s2 hbr =>
      injection ha with ha
      subst ha
      obtain ⟨b, hb, -, ht, hbuf⟩ := brelse_ok _ _ _ _ _ hbr
      exact TInv_set d s k _ s2.buf s2.table h hbuf ht (Or.inr ⟨b, hb, rfl⟩)
    · cases ha
  | pin k =>
    simp only [after] at ha
    split at ha
    next s2 hbr =>
      injection ha with ha
      subst ha
      obtain ⟨b, hb, ht, hbuf⟩ := bpin_ok _ _ _ hbr
      exact TInv_set d s k _ s2.buf s2.table h hbuf ht (Or.inr ⟨b, hb, rfl⟩)
    · cases ha
  | unpin k =>
    simp only [after] at ha
    split at ha
    next s2 hbr =>
      injection ha with ha
      subst ha
      obtain ⟨b, hb, ht, hbuf⟩ := bunpin_ok _ _ _ hbr
      exact TInv_set d s k _ s2.buf s2.table h hbuf ht (Or.inr ⟨b, hb, rfl⟩)
    · cases ha

theorem TInv_afterAll (d : Nat) (evs : List Ev) (s s1 : Bcache) (h : TInv d s)
    (hd : ∀ ev ∈ evs, oneDevice d ev = true) (ha : afterAll s evs = some s1) : TInv d s1 := by
  induction evs generalizing s with
  | nil =>
    simp only [afterAll] at ha
    injection ha with ha
    subst ha
    exact h
  | cons ev evs ih =>
    simp only [afterAll] at ha
    split at ha
    next s2 h2 =>
      exact ih s2 (TInv_after d s ev s2 h (hd ev (List.mem_cons_self _ _)) h2)
        (fun e he => hd e (List.mem_cons_of_mem _ he)) ha
    · cases ha

theorem RowOk_inj (d : Nat) (buf : List Buf) (row : List (Option Nat)) (h : RowOk d buf row)
    (j1 j2 k : Nat) (h1 : row[j1]? = some (some k)) (h2 : row[j2]? = some (some k)) :
    j1 = j2 := by
  obtain ⟨ks, m, hrw, hnd, -, -⟩ := h
  have key : ∀ j : Nat, row[j]? = some (some k) → ks[j]? = some k := by
    intro j hj
    rw [hrw] at hj
    by_cases hjl : j < ks.length
    · rw [List.getElem?_append_left (by simpa using hjl)] at hj
      simp only [List.getElem?_map] at hj
      cases hks : ks[j]? with
      | none => simp [hks] at hj
      | some a =>
        simp [hks] at hj
        rw [hj]
    · rw [List.getElem?_append_right (by simpa using hjl)] at hj
      rw [List.getElem?_replicate] at hj
      split at hj <;> simp at hj
  have e1 := key j1 h1
  have e2 := key j2 h2
  obtain ⟨hl1, e1⟩ := List.getElem?_eq_some.mp e1
  obtain ⟨hl2, e2⟩ := List.getElem?_eq_some.mp e2
  exact (List.Nodup.getElem_inj_iff hnd).mp (e1.trans e2.symm)

theorem entry_eq_some (t : List (List (Option Nat))) (i j : Nat) (x : Option Nat)
    (h : entry t i j = some x) : ∃ row, t[i]? = some row ∧ row ∈ t ∧ row[j]? = some x := by
  unfold entry at h
  cases hrow : t[i]? with
  | none => simp [hrow] at h
  | some row =>
    simp [hrow] at h
    exact ⟨row, rfl, List.getElem?_mem hrow, h⟩

/-- A read on a single device of a block number that no indexed slot carries is a miss: it
re-keys the slot the scan selects, loads it, and keeps the shape of the index. -/
theorem bread_miss_single (d : Nat) (s : Bcache) (h : TInv d s) (pid bn blk v : Nat) (b : Buf)
    (hbn : bn < 4294967296) (hi : 0 ≤ bucketOf (toInt bn))
    (hno : ∀ r ∈ s.table, ∀ k, some k ∈ r → ∀ b0, s.buf[k]? = some b0 → b0.blockno ≠ bn)
    (hm : minTickIndex s.buf = (v : Int)) (hb : s.buf[v]? = some b) (hl : b.lock = none) :
    ∃ t, bread s pid d bn blk =
        .ok ({ buf := s.buf.set v { b with dev := d, blockno := bn, valid := 1, refcnt := 1,
                                           lock := some pid, data := blk },
               table := t }, v, true) ∧
      TInv d { buf := s.buf.set v { b with dev := d, blockno := bn, valid := 1, refcnt := 1,
                                           lock := some pid, data := blk },
               table := t } ∧
      (∀ r ∈ t, ∀ k, some k ∈ r → k = v ∨ ∃ r0 ∈ s.table, some k ∈ r0) := by
  obtain ⟨row, hrow, -⟩ := TInv_row d s h (toInt bn) hi
  have hnokey : ∀ x ∈ row, hasKey s.buf (toInt bn) x = false := by
    intro x hx
    cases x with
    | none => rfl
    | some k =>
      cases hk : hasKey s.buf (toInt bn) (some k) with
      | false => rfl
      | true =>
        exfalso
        obtain ⟨b0, hb0, hbl⟩ := (hasKey_some _ _ _).mp hk
        rw [toUint_toInt bn hbn] at hbl
        exact hno row (List.getElem?_mem hrow) k hx b0 hb0 hbl
  have hg : get s (toInt bn) = .ok none := by
    rw [get_row s (toInt bn) row hi hrow, getScan_of_forall _ _ _ hnokey]
  obtain ⟨t, hpt, htl, hrows, hrefs, -⟩ := put_rekeyed d s h bn hbn hi v b hb row hrow hnokey
  refine ⟨t, bread_miss s pid d bn blk v b none t hg rfl hm hb hl hpt, ⟨htl, ?_⟩, hrefs⟩
  exact rows_rekey_final d s v b _ bn hb rfl t hrows

/-! ## Sequences of calls -/

theorem after_read (s s1 : Bcache) (pid dev bn blk k : Nat) (rd : Bool)
    (h : bread s pid dev bn blk = .ok (s1, k, rd)) :
    after s (.read pid dev bn blk k) = some s1 := by
  simp [after, h]

theorem after_release (s : Bcache) (pid k t : Nat) (b : Buf) (hb : s.buf[k]? = some b)
    (hl : b.lock = some pid) :
    after s (.release pid k t) =
      some { s with buf := s.buf.set k { b with lock := none, refcnt := decr b.refcnt,
                                                ticks := if decr b.refcnt = 0 then t else b.ticks } } := by
  simp [after, brelse_held s pid k t b hb hl]

theorem afterAll_cons (s s1 : Bcache) (ev : Ev) (evs : List Ev) (h : after s ev = some s1) :
    afterAll s (ev :: evs) = afterAll s1 evs := by
  simp [afterAll, h]

/-- One read of a new block followed by its release, on a single device. -/
theorem read_release_single (d : Nat) (s : Bcache) (h : TInv d s) (pid bn blk v t : Nat)
    (b : Buf) (hbn : bn < 4294967296) (hi : 0 ≤ bucketOf (toInt bn))
    (hno : ∀ r ∈ s.table, ∀ k, some k ∈ r → ∀ b0, s.buf[k]? = some b0 → b0.blockno ≠ bn)
    (hm : minTickIndex s.buf = (v : Int)) (hb : s.buf[v]? = some b) (hl : b.lock = none)
    (evs : List Ev) :
    ∃ tb, afterAll s (.read pid d bn blk v :: .release pid v t :: evs) =
        afterAll ⟨s.buf.set v ⟨1, d, bn, 0, t, none, blk⟩, tb⟩ evs ∧
      TInv d ⟨s.buf.set v ⟨1, d, bn, 0, t, none, blk⟩, tb⟩ ∧
      (∀ r ∈ tb, ∀ k, some k ∈ r → k = v ∨ ∃ r0 ∈ s.table, some k ∈ r0) := by
  obtain ⟨tb, hbr, hinv, hrefs⟩ := bread_miss_single d s h pid bn blk v b hbn hi hno hm hb hl
  have hv := getElem?_lt_length _ _ _ hb
  refine ⟨tb, ?_, ?_, hrefs⟩
  · rw [afterAll_cons _ _ _ _ (after_read _ _ _ _ _ _ _ _ hbr)]
    rw [afterAll_cons _ _ _ _ (after_release _ pid v t _ (List.getElem?_set_self hv) rfl)]
    simp [List.set_set, decr_one]
  · exact TInv_set d _ v ⟨1, d, bn, 0, t, none, blk⟩ _ tb hinv (by simp [List.set_set]) rfl
      (Or.inl rfl)

theorem binit_no_refs (n : Nat) : ∀ r ∈ (binit n).table, ∀ k : Nat, some k ∉ r := by
  intro r hr k hk
  simp only [binit] at hr
  have := List.eq_of_mem_replicate hr
  subst this
  simp at hk


/-- A miss never selects a slot whose pin count is not zero, and leaves such a slot as
it is. -/
theorem bgetMiss_other (s : Bcache) (pid dev bn : Nat) (s1 : Bcache) (k : Nat)
    (h : bgetMiss s pid dev bn = .ok (s1, k)) (j : Nat) (b : Buf) (hb : s.buf[j]? = some b)
    (hr : b.refcnt ≠ 0) : k ≠ j ∧ s1.buf[j]? = some b := by
  obtain ⟨b0, t, hb0, -, hm, -, hs⟩ := bgetMiss_ok _ _ _ _ _ _ h
  obtain ⟨b2, hb2, hfree, -⟩ := minTickIndex_eq _ _ hm
  have hkj : k ≠ j := by
    rintro rfl
    rw [hb] at hb2
    injection hb2 with hb2
    subst hb2
    exact hr hfree
  refine ⟨hkj, ?_⟩
  rw [hs]
  simp only
  rw [List.getElem?_set_ne hkj]
  exact hb

/-- The effect of one completed call on slot `j`: its pin count changes by `pinDelta`, as
long as that stays within the range of a `uint`, and while the pin count is not zero the
slot keeps its identity and, once valid, its validity and payload. -/
theorem after_slot (s s1 : Bcache) (ev : Ev) (ha : after s ev = some s1) (j : Nat) (b : Buf)
    (hb : s.buf[j]? = some b) :
    ∃ b1, s1.buf[j]? = some b1 ∧
      (0 ≤ (b.refcnt : Int) + pinDelta j ev → (b.refcnt : Int) + pinDelta j ev < 4294967296 →
        (b1.refcnt : Int) = (b.refcnt : Int) + pinDelta j ev) ∧
      (b.refcnt ≠ 0 → b1.dev = b.dev ∧ b1.blockno = b.blockno ∧
        (b.valid ≠ 0 → b1.valid = b.valid ∧ b1.data = b.data)) := by
  have hj := getElem?_lt_length _ _ _ hb
  have hsame : ∀ d : Int, d = 0 → (0 ≤ (b.refcnt : Int) + d → (b.refcnt : Int) + d < 4294967296 →
      (b.refcnt : Int) = (b.refcnt : Int) + d) := by
    intro d hd _ _
    omega
  have hup : ∀ d : Int, d = 1 → (0 ≤ (b.refcnt : Int) + d → (b.refcnt : Int) + d < 4294967296 →
      ((incr b.refcnt : Nat) : Int) = (b.refcnt : Int) + d) := by
    intro d hd _ h1
    unfold incr
    omega
  have hdown : ∀ d : Int, d = -1 → (0 ≤ (b.refcnt : Int) + d →
      (b.refcnt : Int) + d < 4294967296 →
      ((decr b.refcnt : Nat) : Int) = (b.refcnt : Int) + d) := by
    intro d hd h0 h1
    unfold decr
    omega
  cases ev with
  | read pid dev bn blk ret =>
    simp only [after] at ha
    split at ha
    next s2 k rd hbr =>
      split at ha
      next hk =>
        injection ha with ha
        subst ha hk
        obtain ⟨b0, hb0, hl, hc⟩ := bread_cases _ _ _ _ _ _ _ _ hbr
        by_cases hkj : k = j
        · subst hkj
          rw [hb] at hb0
          injection hb0 with hb0
          subst hb0
          rcases hc with ⟨-, -, -, -, hbuf⟩ | ⟨-, hm, -, -, hbuf⟩
          · refine ⟨_, by rw [hbuf]; exact List.getElem?_set_self hj, ?_, ?_⟩
            · exact hup _ (show pinDelta k (Ev.read pid dev bn blk k) = 1 by simp [pinDelta])
            intro _
            refine ⟨rfl, rfl, ?_⟩
            intro hv
            simp [hv]
          · obtain ⟨b2, hb2, hfree, -⟩ := minTickIndex_eq _ _ hm
            rw [hb] at hb2
            injection hb2 with hb2
            subst hb2
            refine ⟨_, by rw [hbuf]; exact List.getElem?_set_self hj, ?_, ?_⟩
            · intro _ _
              simp [pinDelta, hfree]
            · intro h0
              exact absurd hfree h0
        · have hsame2 : s2.buf[j]? = some b := by
            rcases hc with ⟨-, -, -, -, hbuf⟩ | ⟨-, -, -, -, hbuf⟩
            · rw [hbuf, List.getElem?_set_ne hkj]
              exact hb
            · rw [hbuf, List.getElem?_set_ne hkj]
              exact hb
          exact ⟨b, hsame2,
            hsame _ (show pinDelta j (Ev.read pid dev bn blk k) = 0 by simp [pinDelta, hkj]),
            fun _ => ⟨rfl, rfl, fun _ => ⟨rfl, rfl⟩⟩⟩
      · cases ha
    · cases ha
  | release pid k t =>
    simp only [after] at ha
    split at ha
    next s2 hbr =>
      injection ha with ha
      subst ha
      obtain ⟨b0, hb0, -, -, hbuf⟩ := brelse_ok _ _ _ _ _ hbr
      by_cases hkj : k = j
      · subst hkj
        rw [hb] at hb0
        injection hb0 with hb0
        subst hb0
        refine ⟨⟨b.valid, b.dev, b.blockno, decr b.refcnt,
          if decr b.refcnt = 0 then t else b.ticks, none, b.data⟩,
          by rw [hbuf]; exact List.getElem?_set_self hj, ?_,
          fun _ => ⟨rfl, rfl, fun _ => ⟨rfl, rfl⟩⟩⟩
        exact hdown _ (show pinDelta k (Ev.release pid k t) = -1 by simp [pinDelta])
      · exact ⟨b, by rw [hbuf, List.getElem?_set_ne hkj]; exact hb,
          hsame _ (show pinDelta j (Ev.release pid k t) = 0 by simp [pinDelta, hkj]),
          fun _ => ⟨rfl, rfl, fun _ => ⟨rfl, rfl⟩⟩⟩
    · cases ha
  | pin k =>
    simp only [after] at ha
    split at ha
    next s2 hbr =>
      injection ha with ha
      subst ha
      obtain ⟨b0, hb0, -, hbuf⟩ := bpin_ok _ _ _ hbr
      by_cases hkj : k = j
      · subst hkj
        rw [hb] at hb0
        injection hb0 with hb0
        subst hb0
        refine ⟨{ b with refcnt := incr b.refcnt },
          by rw [hbuf]; exact List.getElem?_set_self hj, ?_,
          fun _ => ⟨rfl, rfl, fun _ => ⟨rfl, rfl⟩⟩⟩
        exact hup _ (show pinDelta k (Ev.pin k) = 1 by simp [pinDelta])
      · exact ⟨b, by rw [hbuf, List.getElem?_set_ne hkj]; exact hb,
          hsame _ (show pinDelta j (Ev.pin k) = 0 by simp [pinDelta, hkj]),
          fun _ => ⟨rfl, rfl, fun _ => ⟨rfl, rfl⟩⟩⟩
    · cases ha
  | unpin k =>
    simp only [after] at ha
    split at ha
    next s2 hbr =>
      injection ha with ha
      subst ha
      obtain ⟨b0, hb0, -, hbuf⟩ := bunpin_ok _ _ _ hbr
      by_cases hkj : k = j
      · subst hkj
        rw [hb] at hb0
        injection hb0 with hb0
        subst hb0
        refine ⟨{ b with refcnt := decr b.refcnt },
          by rw [hbuf]; exact List.getElem?_set_self hj, ?_,
          fun _ => ⟨rfl, rfl, fun _ => ⟨rfl, rfl⟩⟩⟩
        exact hdown _ (show pinDelta k (Ev.unpin k) = -1 by simp [pinDelta])
      · exact ⟨b, by rw [hbuf, List.getElem?_set_ne hkj]; exact hb,
          hsame _ (show pinDelta j (Ev.unpin k) = 0 by simp [pinDelta, hkj]),
          fun _ => ⟨rfl, rfl, fun _ => ⟨rfl, rfl⟩⟩⟩
    · cases ha

theorem balance_cons (j : Nat) (ev : Ev) (evs : List Ev) :
    balance j (ev :: evs) = pinDelta j ev + balance j evs := by
  simp [balance]

/-- Along a sequence of completed calls during which the pin count of slot `j`, as
accounted by `balance`, stays positive and within the range of a `uint`, the slot keeps
its identity, validity and payload, and its pin count is the initial one plus the
balance. -/
theorem afterAll_pinned (evs : List Ev) (s s1 : Bcache) (j : Nat) (b : Buf)
    (ha : afterAll s evs = some s1) (hb : s.buf[j]? = some b) (hv : b.valid ≠ 0)
    (hpos : ∀ n, n ≤ evs.length → 0 < (b.refcnt : Int) + balance j (evs.take n) ∧
      (b.refcnt : Int) + balance j (evs.take n) < 4294967296) :
    ∃ b1, s1.buf[j]? = some b1 ∧ (b1.refcnt : Int) = (b.refcnt : Int) + balance j evs ∧
      b1.dev = b.dev ∧ b1.blockno = b.blockno ∧ b1.valid = b.valid ∧ b1.data = b.data := by
  induction evs generalizing s b with
  | nil =>
    simp only [afterAll] at ha
    injection ha with ha
    subst ha
    exact ⟨b, hb, by simp [balance], rfl, rfl, rfl, rfl⟩
  | cons ev evs ih =>
    simp only [afterAll] at ha
    split at ha
    next s2 h2 =>
      have h0 : 0 < (b.refcnt : Int) := by
        have := (hpos 0 (by simp)).1
        simpa [balance] using this
      have h1 := hpos 1 (by simp)
      simp only [List.take_succ_cons, List.take_zero, balance_cons] at h1
      have hb0 : balance j [] = 0 := by simp [balance]
      rw [hb0] at h1
      obtain ⟨b2, hb2, hr2, hk2⟩ := after_slot s s2 ev h2 j b hb
      have hr2 := hr2 (by omega) (by omega)
      obtain ⟨hd2, hbl2, hvd2⟩ := hk2 (by omega)
      obtain ⟨hv2, hdat2⟩ := hvd2 hv
      obtain ⟨b1, hb1, hr1, hd1, hbl1, hv1, hdat1⟩ := ih s2 b2 ha hb2 (by rw [hv2]; exact hv)
        (by
          intro n hn
          have := hpos (n + 1) (by simp; omega)
          rw [List.take_succ_cons, balance_cons] at this
          rw [hr2]
          constructor <;> omega)
      refine ⟨b1, hb1, ?_, by rw [hd1, hd2], by rw [hbl1, hbl2], by rw [hv1, hv2],
        by rw [hdat1, hdat2]⟩
      rw [hr1, hr2, balance_cons]
      omega
    · cases ha

theorem bpin_at (s : Bcache) (k : Nat) (b : Buf) (hb : s.buf[k]? = some b) :
    bpin s k = .ok { s with buf := s.buf.set k { b with refcnt := incr b.refcnt } } := by
  simp [bpin, hb]

theorem bunpin_at (s : Bcache) (k : Nat) (b : Buf) (hb : s.buf[k]? = some b) :
    bunpin s k = .ok { s with buf := s.buf.set k { b with refcnt := decr b.refcnt } } := by
  simp [bunpin, hb]

/-- After a `bread` the slot returned is valid and, when no pin count was at its maximum
`2 ^ 32 - 1` before, pinned, with a pin count that is not above the maximum. -/
theorem bread_pinned (s s1 : Bcache) (pid dev bn blk k : Nat) (rd : Bool)
    (hmax : ∀ x ∈ s.buf, x.refcnt < 4294967295)
    (h : bread s pid dev bn blk = .ok (s1, k, rd)) :
    ∃ b1, s1.buf[k]? = some b1 ∧ 0 < b1.refcnt ∧ b1.refcnt < 4294967296 ∧ b1.valid ≠ 0 ∧
      b1.lock = some pid ∧ b1.dev = dev := by
  obtain ⟨b, hb, -, hc⟩ := bread_cases _ _ _ _ _ _ _ _ h
  have hk := getElem?_lt_length _ _ _ hb
  have h0 := hmax b (List.getElem?_mem hb)
  rcases hc with ⟨-, hd, -, -, hbuf⟩ | ⟨-, -, -, -, hbuf⟩
  · have hget := List.getElem?_set_self hk (l := s.buf)
      (a := { b with refcnt := incr b.refcnt, lock := some pid,
                     valid := if b.valid = 0 then 1 else b.valid,
                     data := if b.valid = 0 then blk else b.data })
    rw [← hbuf] at hget
    refine ⟨_, hget, ?_, ?_, ?_, rfl, hd⟩
    · simp only [incr]
      omega
    · simp only [incr]
      omega
    · simp only
      split <;> simp_all
  · have hget := List.getElem?_set_self hk (l := s.buf)
      (a := { b with dev := dev, blockno := bn, valid := 1, refcnt := 1,
                     lock := some pid, data := blk })
    rw [← hbuf] at hget
    exact ⟨_, hget, by simp, by simp, by simp, rfl, rfl⟩

/-! ## `bread` on a single device -/

/-- What `bread` does guarantee: on a single device `d`, for a `uint` block number whose
bucket index is not negative, in a state where no sleep lock is held and no pin count is
at its maximum `2 ^ 32 - 1`, `bread` returns when the lookup finds the block or some slot with pin
count zero has a recency below `UINT_MAX`; the slot returned carries the requested
identity, is valid, pinned and locked by the caller, and the disk read is invoked exactly
when `bget` returned the slot with `valid == 0`. -/
theorem bread_returns_single_device (d : Nat) (s : Bcache) (h : TInv d s) (pid bn blk : Nat)
    (hbn : bn < 4294967296) (hi : 0 ≤ bucketOf (toInt bn))
    (hmax : ∀ b ∈ s.buf, b.refcnt < 4294967295) (hlock : ∀ b ∈ s.buf, b.lock = none)
    (hres : (∃ k, get s (toInt bn) = .ok (some k)) ∨
      ∃ b ∈ s.buf, b.refcnt = 0 ∧ b.ticks < UINT_MAX) :
    ∃ s0 s1 k rd b0 b1, bget s pid d bn = .ok (s0, k) ∧ s0.buf[k]? = some b0 ∧
      bread s pid d bn blk = .ok (s1, k, rd) ∧ s1.buf[k]? = some b1 ∧
      rd = decide (b0.valid = 0) ∧
      b1.dev = d ∧ b1.blockno = bn ∧ b1.valid ≠ 0 ∧ 0 < b1.refcnt ∧ b1.lock = some pid := by
  obtain ⟨row, hrow, hrok⟩ := TInv_row d s h (toInt bn) hi
  have hget := get_row s (toInt bn) row hi hrow
  have hfin : ∀ s0 k, bget s pid d bn = .ok (s0, k) →
      ∃ s1 rd b0 b1, s0.buf[k]? = some b0 ∧
        bread s pid d bn blk = .ok (s1, k, rd) ∧ s1.buf[k]? = some b1 ∧
        rd = decide (b0.valid = 0) ∧ b1.dev = b0.dev ∧ b1.blockno = b0.blockno ∧
        b1.valid ≠ 0 ∧ b1.refcnt = b0.refcnt ∧ b1.lock = b0.lock := by
    intro s0 k hbg
    obtain ⟨b, hb, -, hc⟩ := bget_cases _ _ _ _ _ _ hbg
    have hk := getElem?_lt_length _ _ _ hb
    have hb0 : ∃ b0, s0.buf[k]? = some b0 := by
      rcases hc with ⟨-, -, hs0⟩ | ⟨-, -, t, -, hs0⟩
      · exact ⟨_, by rw [hs0]; exact List.getElem?_set_self hk⟩
      · exact ⟨_, by rw [hs0]; exact List.getElem?_set_self hk⟩
    obtain ⟨b0, hb0⟩ := hb0
    have hk0 := getElem?_lt_length _ _ _ hb0
    by_cases hv : b0.valid = 0
    · refine ⟨{ s0 with buf := s0.buf.set k { b0 with data := blk, valid := 1 } }, true, b0,
        { b0 with data := blk, valid := 1 }, hb0, ?_, List.getElem?_set_self hk0,
        by simp [hv], rfl, rfl, by simp, rfl, rfl⟩
      simp [bread, hbg, hb0, hv]
    · refine ⟨s0, false, b0, b0, hb0, ?_, hb0, by simp [hv], rfl, rfl, hv, rfl, rfl⟩
      simp [bread, hbg, hb0, hv]
  cases hscan : getScan s.buf (toInt bn) row with
  | some k =>
    obtain ⟨hmem, hkey⟩ := getScan_some _ _ _ _ hscan
    obtain ⟨b, hb, hbl⟩ := (hasKey_some _ _ _).mp hkey
    rw [toUint_toInt bn hbn] at hbl
    have hk := getElem?_lt_length _ _ _ hb
    have hdev : b.dev = d := by
      obtain ⟨ks, m, hrw, -, -, hks⟩ := hrok
      have hkm : k ∈ ks := by
        rw [hrw] at hmem
        simpa using hmem
      obtain ⟨b2, hb2, hd2⟩ := hks k hkm
      rw [hb] at hb2
      injection hb2 with hb2
      rw [hb2]
      exact hd2
    have hl := hlock b (List.getElem?_mem hb)
    have h0 := hmax b (List.getElem?_mem hb)
    have hbg := bget_hit s pid d bn k b (by rw [hget, hscan]) hb hdev hl
    obtain ⟨s1, rd, b0, b1, hb0, hbr, hb1, hrd, e1, e2, e3, e4, e5⟩ := hfin _ _ hbg
    have hb0eq : b0 = { b with refcnt := incr b.refcnt, lock := some pid } := by
      have : some b0 = some { b with refcnt := incr b.refcnt, lock := some pid } := by
        rw [← hb0]
        exact List.getElem?_set_self hk
      exact Option.some.inj this
    refine ⟨_, s1, k, rd, b0, b1, hbg, hb0, hbr, hb1, hrd, ?_, ?_, e3, ?_, ?_⟩
    · rw [e1, hb0eq]
      exact hdev
    · rw [e2, hb0eq]
      exact hbl
    · rw [e4, hb0eq]
      simp only [incr]
      omega
    · rw [e5, hb0eq]
  | none =>
    have hg : get s (toInt bn) = .ok none := by rw [hget, hscan]
    have hnokey := getScan_none _ _ _ hscan
    rcases minTickIndex_cases s.buf with ⟨-, hnone⟩ | ⟨v, b, hb, hm, -, -, -, -⟩
    · exfalso
      rcases hres with ⟨k, hk⟩ | ⟨b, hbm, hfree⟩
      · rw [hg] at hk
        cases hk
      · exact hnone b hbm hfree
    · have hk := getElem?_lt_length _ _ _ hb
      have hl := hlock b (List.getElem?_mem hb)
      obtain ⟨t, hpt, -, -, -, -⟩ := put_rekeyed d s h bn hbn hi v b hb row hrow hnokey
      have hbg := bget_miss s pid d bn v b none t hg rfl hm hb hl hpt
      obtain ⟨s1, rd, b0, b1, hb0, hbr, hb1, hrd, e1, e2, e3, e4, e5⟩ := hfin _ _ hbg
      have hb0eq : b0 = { b with dev := d, blockno := bn, valid := 0, refcnt := 1,
                                 lock := some pid } := by
        have : some b0 = some { b with dev := d, blockno := bn, valid := 0, refcnt := 1,
                                       lock := some pid } := by
          rw [← hb0]
          exact List.getElem?_set_self hk
        exact Option.some.inj this
      refine ⟨_, s1, v, rd, b0, b1, hbg, hb0, hbr, hb1, hrd, ?_, ?_, e3, ?_, ?_⟩
      · rw [e1, hb0eq]
      · rw [e2, hb0eq]
      · rw [e4, hb0eq]
        simp
      · rw [e5, hb0eq]

/-- The pin count wraps around.  After a read, a `bunpin` that matches no `bpin` and the
release, slot 0 has pin count `4294967295` and a free lock.  A read of the same block by
process 2, a `bpin` and the release then leave the pin count at 0, although the pin is
outstanding: the slot is eligible for eviction. -/
theorem pin_lost_by_wrap_around :
    ∃ s b s1 s2 s3 b3, afterAll (binit 3) [.read 1 1 5 0 0, .unpin 0, .release 1 0 7] = some s ∧
      s.buf[0]? = some b ∧ b.refcnt = 4294967295 ∧ b.lock = none ∧
      bread s 2 1 5 0 = .ok (s1, 0, false) ∧ bpin s1 0 = .ok s2 ∧
      brelse s2 2 0 8 = .ok s3 ∧ s3.buf[0]? = some b3 ∧ b3.refcnt = 0 := by
  exact ⟨_, _, _, _, _, _, rfl, rfl, by decide, rfl, rfl, rfl, rfl, rfl, by decide⟩

/-! ## `put` inside the bucket -/

/-- What `put` does when its loop stops inside the bucket.  For every table state, every
key whose bucket index `key % NBUCKET` is not negative and every slot `v`: when the bucket
has an entry that is empty or references a slot whose `blockno` equals the key,
`put(key, v)` returns and writes exactly one entry, the first entry `j` of that bucket that
is empty or has the key; every entry before `j` is occupied without the key, and all other
entries of all buckets are unchanged. -/
theorem put_first_empty_or_matching (s : Bcache) (key : Int) (v : Nat) (row : List (Option Nat))
    (hi : 0 ≤ bucketOf key) (hrow : s.table[(bucketOf key).toNat]? = some row)
    (hex : ∃ e ∈ row, e = none ∨ hasKey s.buf key e = true) :
    ∃ j t, put s key v = .ok t ∧ j < row.length ∧
      (∃ e, row[j]? = some e ∧ (e = none ∨ hasKey s.buf key e = true)) ∧
      (∀ j', j' < j → ∃ k, row[j']? = some (some k) ∧ hasKey s.buf key (some k) = false) ∧
      entry t (bucketOf key).toNat j = some (some v) ∧
      ∀ i' j', (i', j') ≠ ((bucketOf key).toNat, j) → entry t i' j' = entry s.table i' j' := by
  have hlt := putScan_lt s.buf key row hex
  refine ⟨putScan s.buf key row, _, put_ok s key v row hi hrow hlt, hlt, ?_, ?_, ?_, ?_⟩
  · exact ⟨_, List.getElem?_eq_getElem hlt, putScan_stops _ _ _ _ (List.getElem?_eq_getElem hlt)⟩
  · exact fun j' hj' => putScan_before _ _ _ _ hj'
  · exact entry_insert_self _ _ _ _ row hrow hlt
  · exact fun i' j' h => entry_insert_other _ _ _ _ _ _ h

/-- The scenario of a full bucket in a pool of 30 slots.  After `fullBucketCalls` every
entry of bucket 5 references one of the slots `1, ..., 29`, all of them held, and the first
entry of bucket 6 references slot 0, which is free.  The read of block 395 of device 1, of
bucket 5, re-keys slot 0: `put` tests the first entry of bucket 6, finds slot 0 with block
number 395 there and leaves the table as it is, so `get` does not find the block. -/
theorem put_full_bucket_thirty_slots :
    ∃ s0 s1, afterAll (binit 30) fullBucketCalls = some s0 ∧
      s0.table[5]? = some (some 1 :: some 1 :: (List.range 28).map (fun k => some (k + 2))) ∧
      entry s0.table 6 0 = some (some 0) ∧ bucketOf (toInt 395) = 5 ∧
      bread s0 1 1 395 0 = .ok (s1, 0, true) ∧ s1.table = s0.table ∧
      get s1 (toInt 395) = .ok none := by
  refine ⟨(afterAll (binit 30) fullBucketCalls).getD (binit 0),
    match bread ((afterAll (binit 30) fullBucketCalls).getD (binit 0)) 1 1 395 0 with
    | .ok r => r.1
    | .error _ => binit 0, ?_, ?_, ?_, ?_, ?_, ?_, ?_⟩ <;> decide!
/-! ## The lock events of `bget` -/

theorem bgetMissEv_result (s : Bcache) (pid dev bn : Nat) :
    (bgetMissEv s pid dev bn).2 = bgetMiss s pid dev bn := by
  unfold bgetMissEv bgetMiss
  simp only
  split
  · rfl
  · split
    · rfl
    · split <;> rfl

theorem bgetEv_result (s : Bcache) (pid dev bn : Nat) :
    (bgetEv s pid dev bn).2 = bget s pid dev bn := by
  unfold bgetEv bget
  split
  · rfl
  · split
    · rfl
    · exact bgetMissEv_result s pid dev bn

theorem bgetMissEv_shape (s : Bcache) (pid dev bn : Nat) :
    (bgetMissEv s pid dev bn).1 = [.acquire .pool] ∨
    ∃ m, (bgetMissEv s pid dev bn).1 =
      [.acquire .pool, .release .pool, .release (.bucket (bn % NBUCKET)),
       .acquire (.sleep m)] ∧
      ∀ s1 k, bgetMiss s pid dev bn = .ok (s1, k) → k = m := by
  unfold bgetMissEv bgetMiss
  simp only
  split
  · exact Or.inl rfl
  · split
    · exact Or.inl rfl
    · split
      · exact Or.inl rfl
      · refine Or.inr ⟨_, rfl, ?_⟩
        intro s1 k h
        split at h
        · cases h
        · injection h with h
          injection h with h1 h2
          exact h2.symm

/-- The lock events of `bget` have one of four shapes: the lookup stops; a hit; a miss
that stops under the pool-wide lock; a miss that runs to `acquiresleep`. -/
theorem bgetEv_shape (s : Bcache) (pid dev bn : Nat) :
    ((bgetEv s pid dev bn).1 = [.acquire (.bucket (bn % NBUCKET))] ∧
      ∃ e0, get s (toInt bn) = .error e0) ∨
    (∃ e k b, get s (toInt bn) = .ok e ∧ hitSlot s dev e = some (k, b) ∧
      (bgetEv s pid dev bn).1 =
        [.acquire (.bucket (bn % NBUCKET)), .release (.bucket (bn % NBUCKET)),
         .acquire (.sleep k)] ∧
      ∀ s1 k1, bget s pid dev bn = .ok (s1, k1) → k1 = k) ∨
    (∃ e, get s (toInt bn) = .ok e ∧ hitSlot s dev e = none ∧
      ((bgetEv s pid dev bn).1 = [.acquire (.bucket (bn % NBUCKET)), .acquire .pool] ∧
          (∀ s1 k1, bget s pid dev bn ≠ .ok (s1, k1)) ∨
       ∃ m, (bgetEv s pid dev bn).1 =
          [.acquire (.bucket (bn % NBUCKET)), .acquire .pool, .release .pool,
           .release (.bucket (bn % NBUCKET)), .acquire (.sleep m)] ∧
          ∀ s1 k1, bget s pid dev bn = .ok (s1, k1) → k1 = m)) := by
  cases hg : get s (toInt bn) with
  | error e0 =>
    left
    exact ⟨by simp [bgetEv, hg], e0, rfl⟩
  | ok e =>
    right
    cases hh : hitSlot s dev e with
    | some kb =>
      obtain ⟨k, b⟩ := kb
      left
      refine ⟨e, k, b, rfl, hh, by simp [bgetEv, hg, hh], ?_⟩
      intro s1 k1 h
      simp only [bget, hg, hh] at h
      split at h
      · cases h
      · injection h with h
        injection h with h1 h2
        exact h2.symm
    | none =>
      right
      refine ⟨e, rfl, hh, ?_⟩
      have hb : bget s pid dev bn = bgetMiss s pid dev bn := by simp [bget, hg, hh]
      have htr : (bgetEv s pid dev bn).1
          = .acquire (.bucket (bn % NBUCKET)) :: (bgetMissEv s pid dev bn).1 := by
        simp [bgetEv, hg, hh]
      rcases bgetMissEv_shape s pid dev bn with h1 | ⟨m, h1, h2⟩
      · left
        refine ⟨by rw [htr, h1], ?_⟩
        intro s1 k1 hk
        rw [hb] at hk
        obtain ⟨b, t, hbv, -, hm, hp, -⟩ := bgetMiss_ok _ _ _ _ _ _ hk
        have hlen := getElem?_lt_length _ _ _ hbv
        have : (bgetMissEv s pid dev bn).1.length = 4 := by
          have hnn : ¬ ((k1 : Int) < 0) := by omega
          simp [bgetMissEv, hm, hbv, hp, hnn]
        rw [h1] at this
        simp at this
      · right
        exact ⟨m, by rw [htr, h1], fun s1 k1 hk => h2 s1 k1 (hb ▸ hk)⟩

theorem oneDevice_of_lowDevice (d : Nat) (ev : Ev) (h : lowDevice d ev = true) :
    oneDevice d ev = true := by
  cases ev with
  | read pid dev bn blk ret =>
    simp only [lowDevice, oneDevice, Bool.and_eq_true, beq_iff_eq, decide_eq_true_eq] at h ⊢
    exact ⟨h.1, by omega⟩
  | release pid k t => rfl
  | pin k => rfl
  | unpin k => rfl


/-- For every `uint` block number of `2 ^ 31` or more, the bucket index that `get` and
`put` compute from the signed key differs from `blockno % NBUCKET`, the index of the bucket
lock: it is negative or zero, and zero only where `blockno % NBUCKET` is not. -/
theorem bucketOf_toInt_large (u : Nat) (h1 : 2147483648 ≤ u) (h2 : u < 4294967296) :
    bucketOf (toInt u) ≤ 0 ∧ bucketOf (toInt u) ≠ ((u % NBUCKET : Nat) : Int) := by
  have hk : toInt u = -((4294967296 - u : Nat) : Int) := by
    unfold toInt
    rw [Nat.mod_eq_of_lt h2, if_neg (by omega)]
    omega
  have hb : bucketOf (toInt u) = -(((4294967296 - u) % 13 : Nat) : Int) := by
    rw [hk]
    obtain ⟨m, hm⟩ : ∃ m, 4294967296 - u = m + 1 := ⟨4294967296 - u - 1, by omega⟩
    rw [hm]
    rfl
  rw [hb]
  unfold NBUCKET
  refine ⟨by omega, ?_⟩
  omega

/-! ## The claims -/

/-- C1 (failing inputs).  `bread` does not return a slot although the premise of the claim
holds.  First, on the freshly initialised cache of 30 slots, all with pin count zero,
`bread(1, 2147483649)`: the `int key` of `get` is negative, its bucket index is `-10`, and
`table[-10][0]` is outside the table.  Second, with two devices: the identity `(1, 5)` is
resident in slot 0 (pinned, not locked), but the `put` for `(2, 5)` has overwritten its
index entry; with the other slots pinned, `bread(1, 5)` misses, finds no victim and
indexes `bcache.buf[-1]`. -/
theorem bread_does_not_return :
    (Reachable 30 (binit 30) ∧ (∃ b ∈ (binit 30).buf, b.refcnt = 0) ∧
      bucketOf (toInt 2147483649) = -10 ∧
      bread (binit 30) 1 1 2147483649 0 = .error .outOfBounds) ∧
    (∃ s b, afterAll (binit 3)
        [.read 1 1 5 0 0, .pin 0, .release 1 0 1, .read 1 2 5 0 1, .read 1 1 7 0 2] = some s ∧
      s.buf[0]? = some b ∧ b.dev = 1 ∧ b.blockno = 5 ∧ b.lock = none ∧
      bread s 3 1 5 0 = .error .outOfBounds) := by
  refine ⟨⟨⟨[], rfl⟩, ?_, by decide, by decide⟩, ?_⟩
  · exact ⟨_, List.getElem?_mem (n := 0) rfl, rfl⟩
  · exact ⟨_, _, rfl, rfl, rfl, rfl, rfl, by decide⟩

/-- C2 (failing input).  Three reads, each released when the tick counter is `2 ^ 32 - 1`,
leave all three slots with pin count zero and recency `UINT_MAX`.  The scan of the next
miss compares with `ticks < min_ticks`, `min_ticks` starting at `UINT_MAX`, selects none of
them, and `bget` indexes `bcache.buf[-1]` instead of re-keying slot 0. -/
theorem scan_skips_max_ticks :
    ∃ s, afterAll (binit 3)
        [.read 1 1 0 0 0, .release 1 0 4294967295, .read 1 1 1 0 1, .release 1 1 4294967295,
         .read 1 1 2 0 2, .release 1 2 4294967295] = some s ∧
      (∀ b ∈ s.buf, b.refcnt = 0 ∧ b.ticks = UINT_MAX) ∧
      get s (toInt 3) = .ok none ∧
      minTickIndex s.buf = -1 ∧
      bget s 1 1 3 = .error .outOfBounds := by
  refine ⟨_, rfl, by decide, by decide, by decide, by decide⟩

/-- C3 (the code at the failing inputs).  When no slot has pin count zero, a `bget` that
misses leaves the scan with `min_tick_index = -1` and indexes `bcache.buf[-1]`: it does not
reach `panic("bget: no buffers")`, which stands after the `return`. -/
theorem bget_exhausted_out_of_bounds (s : Bcache) (pid dev bn : Nat) (e : Option Nat)
    (hg : get s (toInt bn) = .ok e) (hh : hitSlot s dev e = none)
    (hall : ∀ b ∈ s.buf, 0 < b.refcnt) :
    minTickIndex s.buf = -1 ∧ bget s pid dev bn = .error .outOfBounds ∧
      bget s pid dev bn ≠ .error (.panics "bget: no buffers") := by
  have hm : minTickIndex s.buf = -1 := by
    rcases minTickIndex_cases s.buf with ⟨h, -⟩ | ⟨v, b, hv, -, hf, -⟩
    · exact h
    · have := hall b (List.getElem?_mem hv)
      omega
  have hb : bget s pid dev bn = .error .outOfBounds := by
    simp [bget, hg, hh, bgetMiss, hm]
  refine ⟨hm, hb, ?_⟩
  rw [hb]
  simp

/-- Witness of `bget_exhausted_out_of_bounds`: a pool of three slots, all read and held,
and a fourth block. -/
theorem bget_exhausted_out_of_bounds_witness :
    ∃ s, afterAll (binit 3) [.read 1 1 0 0 0, .read 1 1 1 0 1, .read 1 1 2 0 2] = some s ∧
      (∀ b ∈ s.buf, 0 < b.refcnt) ∧
      bget s 1 1 3 = .error .outOfBounds ∧
      bget s 1 1 3 ≠ .error (.panics "bget: no buffers") := by
  refine ⟨_, rfl, by decide, ?_⟩
  exact (bget_exhausted_out_of_bounds _ 1 1 3 none (by decide) (by decide) (by decide)).2

/-- C4 (failing input).  `bread(1, 5)` and `brelse` leave block `(1, 5)` in slot 0; then
`bread(2, 5)` and `brelse` re-key slot 1, not slot 0, but the `put` for key 5 overwrites
the index entry of slot 0.  The next `bread(1, 5)` finds the entry of device 2, misses,
re-keys slot 2 and invokes the disk read, while slot 0 still holds `(1, 5)`, valid. -/
theorem retention_lost_across_devices :
    ∃ s1 s2 s3 b0, bread (binit 3) 1 1 5 0 = .ok (s1, 0, true) ∧
      afterAll s1 [.release 1 0 1, .read 1 2 5 0 1, .release 1 1 2] = some s2 ∧
      s2.buf[0]? = some b0 ∧ b0.dev = 1 ∧ b0.blockno = 5 ∧ b0.valid = 1 ∧
      bread s2 1 1 5 0 = .ok (s3, 2, true) := by
  exact ⟨_, _, _, _, rfl, rfl, rfl, rfl, rfl, rfl, rfl⟩

/-- C5 (counterexample).  Process 1 reads block `(1, 5)` and holds slot 0 with pin count 1;
a `bunpin` that matches no `bpin` leaves the pin count at 0 with the sleep lock still
held.  `brelse` then wraps the `uint` pin count around to `4294967295`: it is not
decreased by one. -/
theorem brelse_wraps_at_zero :
    ∃ s b s1 b1, afterAll (binit 3) [.read 1 1 5 0 0, .unpin 0] = some s ∧
      s.buf[0]? = some b ∧ b.lock = some 1 ∧ b.refcnt = 0 ∧
      brelse s 1 0 7 = .ok s1 ∧ s1.buf[0]? = some b1 ∧ b1.lock = none ∧
      b1.refcnt = 4294967295 := by
  exact ⟨_, _, _, _, rfl, rfl, rfl, rfl, rfl, rfl, rfl, by decide⟩

/-- C5 (as amended).  For a slot `k` whose sleep lock process `pid` holds and whose pin
count is at least one (and a `uint`), `brelse` returns; it releases the lock, decreases the
pin count by exactly one, sets the recency to the tick value `t` when the new pin count is
zero and leaves it unchanged otherwise; `dev`, `blockno`, `valid` and the payload of the
slot, every other slot and the whole index are unchanged. -/
theorem brelse_effect (s : Bcache) (pid k t : Nat) (b : Buf) (hb : s.buf[k]? = some b)
    (hl : b.lock = some pid) (h0 : 0 < b.refcnt) (hu : b.refcnt < 4294967296) :
    ∃ s1 b1, brelse s pid k t = .ok s1 ∧ s1.buf[k]? = some b1 ∧
      b1.lock = none ∧ b1.refcnt + 1 = b.refcnt ∧
      (b1.refcnt = 0 → b1.ticks = t) ∧ (b1.refcnt ≠ 0 → b1.ticks = b.ticks) ∧
      b1.dev = b.dev ∧ b1.blockno = b.blockno ∧ b1.valid = b.valid ∧ b1.data = b.data ∧
      (∀ j, j ≠ k → s1.buf[j]? = s.buf[j]?) ∧ s1.buf.length = s.buf.length ∧
      s1.table = s.table := by
  have hk := getElem?_lt_length _ _ _ hb
  refine ⟨_, _, brelse_held s pid k t b hb hl, List.getElem?_set_self hk, rfl, ?_, ?_, ?_,
    rfl, rfl, rfl, rfl, ?_, by simp, rfl⟩
  · simp only
    rw [decr_pos b.refcnt h0 (by omega)]
    omega
  · intro h1
    simp only at h1
    simp [h1]
  · intro h1
    simp only at h1
    simp [h1]
  · intro j hj
    simp only
    rw [List.getElem?_set_ne (Ne.symm hj)]

/-- Witness of `brelse_effect`: the slot that `bread(1, 5)` returned to process 1 on a
fresh pool, released at tick 7. -/
theorem brelse_effect_witness :
    ∃ s b s1 b1, bread (binit 3) 1 1 5 0 = .ok (s, 0, true) ∧ s.buf[0]? = some b ∧
      b.lock = some 1 ∧ b.refcnt = 1 ∧ brelse s 1 0 7 = .ok s1 ∧ s1.buf[0]? = some b1 ∧
      b1.lock = none ∧ b1.refcnt + 1 = b.refcnt ∧ b1.ticks = 7 ∧ s1.table = s.table := by
  obtain ⟨s1, b1, h1, h2, h3, h4, h5, -, -, -, -, -, -, -, h6⟩ :=
    brelse_effect
      ⟨[⟨1, 1, 5, 1, 0, some 1, 0⟩, ⟨0, 0, 0, 0, 0, none, 0⟩, ⟨0, 0, 0, 0, 0, none, 0⟩],
        insert 0 (binit 3).table 5 0⟩ 1 0 7 ⟨1, 1, 5, 1, 0, some 1, 0⟩ rfl rfl
      (by decide) (by decide)
  have h7 : b1.refcnt = 0 := by
    have : b1.refcnt + 1 = 1 := h4
    omega
  exact ⟨_, _, s1, b1, rfl, rfl, rfl, rfl, h1, h2, h3, h4, h5 h7, h6⟩

/-- C6 (counterexample).  Slot 0 holds block `(1, 5)` and is pinned once by an earlier
`bpin`.  Process 2 reads the block, pins the slot, releases it and then unpins it: after
the matching `bunpin` the pin count is 1, not zero, so the slot is not eligible for
eviction. -/
theorem unpin_leaves_other_pins :
    ∃ s s1 s2 s3 s4 b4, Reachable 3 s ∧
      bread s 2 1 5 0 = .ok (s1, 0, false) ∧ bpin s1 0 = .ok s2 ∧
      brelse s2 2 0 2 = .ok s3 ∧ bunpin s3 0 = .ok s4 ∧
      s4.buf[0]? = some b4 ∧ b4.refcnt = 1 := by
  exact ⟨_, _, _, _, _, _, ⟨[.read 1 1 5 0 0, .pin 0, .release 1 0 1], rfl⟩,
    rfl, rfl, rfl, rfl, rfl, rfl⟩

/-- C6 (as amended).  In a state where no pin count is at its maximum `2 ^ 32 - 1`, let
`bread` return slot `b`.  Then `bpin(b)` followed by `brelse(b)` return and leave the pin
count of `b` positive, as `bread` returned it.  After any further completed calls during
which the pin count of `b`, that count plus the balance of the reads and pins over the
releases and unpins of `b`, stays between 1 and `2 ^ 32 - 1` at every prefix of the calls,
`b` still has its `dev`, `blockno`, `valid` and payload and a positive pin count; a miss
of `bget` in that state re-keys another slot and leaves `b` as it is; and a `bunpin(b)`
then leaves the pin count at the one `bread` returned, minus one, plus the balance of the
calls in between: zero exactly when no other holder or pin of `b` is left. -/
theorem pin_precedence (s s1 : Bcache) (pid dev bn blk t b : Nat) (rd : Bool)
    (hmax : ∀ x ∈ s.buf, x.refcnt < 4294967295)
    (hbr : bread s pid dev bn blk = .ok (s1, b, rd)) :
    ∃ s2 s3 b1 b3, bpin s1 b = .ok s2 ∧ brelse s2 pid b t = .ok s3 ∧
      s1.buf[b]? = some b1 ∧ s3.buf[b]? = some b3 ∧
      0 < b3.refcnt ∧ b3.refcnt = b1.refcnt ∧
      b3.dev = b1.dev ∧ b3.blockno = b1.blockno ∧ b3.valid = b1.valid ∧ b3.data = b1.data ∧
      ∀ evs s4, afterAll s3 evs = some s4 →
        (∀ n, n ≤ evs.length → 0 < (b3.refcnt : Int) + balance b (evs.take n) ∧
          (b3.refcnt : Int) + balance b (evs.take n) < 4294967296) →
        (∃ b4, s4.buf[b]? = some b4 ∧ 0 < b4.refcnt ∧ b4.dev = b1.dev ∧
          b4.blockno = b1.blockno ∧ b4.valid = b1.valid ∧ b4.data = b1.data) ∧
        (∀ p dv k s5 j, bgetMiss s4 p dv k = .ok (s5, j) →
          j ≠ b ∧ s5.buf[b]? = s4.buf[b]?) ∧
        (∃ s5 b5, bunpin s4 b = .ok s5 ∧ s5.buf[b]? = some b5 ∧
          (b5.refcnt : Int) = (b1.refcnt : Int) - 1 + balance b evs ∧ b5.dev = b1.dev ∧
          b5.blockno = b1.blockno ∧ b5.valid = b1.valid ∧ b5.data = b1.data) := by
  obtain ⟨b1, hb1, hpos1, hlt1, hv1, hl1, -⟩ := bread_pinned s s1 pid dev bn blk b rd hmax hbr
  have hk1 := getElem?_lt_length _ _ _ hb1
  have hb2 : ({ s1 with buf := s1.buf.set b { b1 with refcnt := incr b1.refcnt } } : Bcache).buf[b]?
      = some { b1 with refcnt := incr b1.refcnt } := List.getElem?_set_self hk1
  have hrel := brelse_held _ pid b t _ hb2 hl1
  have hk2 : b < (s1.buf.set b { b1 with refcnt := incr b1.refcnt }).length := by simpa using hk1
  have hback : decr (incr b1.refcnt) = b1.refcnt := decr_incr b1.refcnt hlt1
  refine ⟨_, _, b1, _, bpin_at s1 b b1 hb1, hrel, hb1, List.getElem?_set_self hk2, ?_, ?_,
    rfl, rfl, rfl, rfl, ?_⟩
  · simp only
    omega
  · exact hback
  · intro evs s4 hrun hbal
    obtain ⟨b4, hb4, hr4, hd4, hbl4, hv4, hdat4⟩ :=
      afterAll_pinned evs _ s4 b _ hrun (List.getElem?_set_self hk2) hv1 hbal
    have hfin := hbal evs.length (le_refl _)
    rw [List.take_length] at hfin
    simp only [hback] at hr4 hfin
    have hk4 := getElem?_lt_length _ _ _ hb4
    have hpos4 : 0 < b4.refcnt := by omega
    refine ⟨⟨b4, hb4, hpos4, hd4, hbl4, hv4, hdat4⟩, ?_, ?_⟩
    · intro p dv k s5 j hmiss
      obtain ⟨hne, hsame⟩ := bgetMiss_other s4 p dv k s5 j hmiss b b4 hb4 (by omega)
      exact ⟨hne, by rw [hsame, hb4]⟩
    · refine ⟨_, _, bunpin_at s4 b b4 hb4, List.getElem?_set_self hk4, ?_, hd4, hbl4, hv4, hdat4⟩
      simp only
      rw [decr_pos b4.refcnt hpos4 (by omega)]
      omega

/-- Witness of `pin_precedence`: the first read on a fresh pool of three slots, with a
read and release of another block in between. -/
theorem pin_precedence_witness :
    ∃ s1 s3 s4 s5 b5, bread (binit 3) 1 1 5 0 = .ok (s1, 0, true) ∧
      afterAll s1 [.pin 0, .release 1 0 1] = some s3 ∧
      afterAll s3 [.read 2 1 6 0 1, .release 2 1 2] = some s4 ∧
      bunpin s4 0 = .ok s5 ∧ s5.buf[0]? = some b5 ∧ b5.refcnt = 0 ∧ b5.blockno = 5 := by
  obtain ⟨s2, s3, b1, b3, h1, h2, h3, h4, -, -, -, -, -, -, h5⟩ :=
    pin_precedence (binit 3) _ 1 1 5 0 1 0 true (by decide)
      (rfl : bread (binit 3) 1 1 5 0 = .ok
        (⟨[⟨1, 1, 5, 1, 0, some 1, 0⟩, ⟨0, 0, 0, 0, 0, none, 0⟩, ⟨0, 0, 0, 0, 0, none, 0⟩],
          insert 0 (binit 3).table 5 0⟩, 0, true))
  have e1 : b1 = ⟨1, 1, 5, 1, 0, some 1, 0⟩ := by
    have : some b1 = some (⟨1, 1, 5, 1, 0, some 1, 0⟩ : Buf) := h3.symm.trans rfl
    exact Option.some.inj this
  have e2 : (Except.ok s2 : Except Stop Bcache) = .ok
      ⟨[⟨1, 1, 5, 2, 0, some 1, 0⟩, ⟨0, 0, 0, 0, 0, none, 0⟩, ⟨0, 0, 0, 0, 0, none, 0⟩],
      insert 0 (binit 3).table 5 0⟩ := h1.symm.trans (by decide)
  injection e2 with e2
  subst e2
  have e3 : (Except.ok s3 : Except Stop Bcache) = .ok
      ⟨[⟨1, 1, 5, 1, 0, none, 0⟩, ⟨0, 0, 0, 0, 0, none, 0⟩, ⟨0, 0, 0, 0, 0, none, 0⟩],
      insert 0 (binit 3).table 5 0⟩ := h2.symm.trans (by decide)
  injection e3 with e3
  subst e3
  have e4 : b3 = ⟨1, 1, 5, 1, 0, none, 0⟩ := by
    have : some b3 = some (⟨1, 1, 5, 1, 0, none, 0⟩ : Buf) := h4.symm.trans rfl
    exact Option.some.inj this
  subst e1 e4
  obtain ⟨-, -, s5, b5, h6, h7, h8, -, h9, -, -⟩ :=
    h5 [.read 2 1 6 0 1, .release 2 1 2] _ rfl (by
      intro n hn
      have hn2 : n = 0 ∨ n = 1 ∨ n = 2 := by
        simp at hn
        omega
      rcases hn2 with rfl | rfl | rfl <;> decide)
  have h10 : b5.refcnt = 0 := by
    have hb : balance 0 [Ev.read 2 1 6 0 1, Ev.release 2 1 2] = 0 := by decide
    rw [hb] at h8
    simp only at h8
    omega
  exact ⟨_, _, _, s5, b5, rfl, rfl, rfl, h6, h7, h10, h9⟩

/-- C7 (counterexample).  With the first release recorded at tick `t1 = 0`, the slot of A
ties with the never-used slots, whose recency is 0 too, and has the lowest index: the read
of B already re-keys it.  After the three reads and releases no slot holds A, and the read
of D re-keys slot 2, which never held A. -/
theorem lru_scenario_fails_at_tick_zero :
    ∃ s3 s4, afterAll (binit 3)
        [.read 1 1 1 0 0, .release 1 0 0, .read 1 1 2 0 0, .release 1 0 1,
         .read 1 1 3 0 1, .release 1 1 2] = some s3 ∧
      idents s3 = [(1, 2), (1, 3), (0, 0)] ∧
      bread s3 1 1 4 0 = .ok (s4, 2, true) ∧
      idents s4 = [(1, 2), (1, 3), (1, 4)] := by
  exact ⟨_, _, rfl, rfl, rfl, rfl⟩

/-- C7 (as amended).  In a freshly initialised pool of three slots, for pairwise distinct
block numbers A, B, C, D below `2 ^ 31` on one device and tick values
`0 < t1 < t2 < t3 < 2 ^ 32` recorded by the three releases: the reads and releases of A, B
and C return and leave A, B, C in slots 0, 1, 2; `bread(D)` then is a miss that re-keys
slot 0, the slot of A, invokes the disk read and leaves B and C in their slots; and a
following `bread(A)` is a miss again, it re-keys slot 1 and invokes the disk read. -/
theorem lru_scenario_evicts_oldest (pid d A B C D xa xb xc xd xe t1 t2 t3 : Nat)
    (hA : A < 2147483648) (hB : B < 2147483648) (hC : C < 2147483648) (hD : D < 2147483648)
    (hAB : A ≠ B) (hAC : A ≠ C) (hAD : A ≠ D) (hBC : B ≠ C) (hBD : B ≠ D) (hCD : C ≠ D)
    (h1 : 0 < t1) (h12 : t1 < t2) (h23 : t2 < t3) (h3 : t3 < 4294967296) :
    ∃ s3 s4 s5,
      afterAll (binit 3)
        [.read pid d A xa 0, .release pid 0 t1, .read pid d B xb 1, .release pid 1 t2,
         .read pid d C xc 2, .release pid 2 t3] = some s3 ∧
      idents s3 = [(d, A), (d, B), (d, C)] ∧
      bread s3 pid d D xd = .ok (s4, 0, true) ∧
      idents s4 = [(d, D), (d, B), (d, C)] ∧
      bread s4 pid d A xe = .ok (s5, 1, true) := by
  -- first read and release
  obtain ⟨ta, ha, hia, hra⟩ := read_release_single d (binit 3) (TInv_binit d 3) pid A xa 0 t1
    { valid := 0, dev := 0, blockno := 0, refcnt := 0, ticks := 0, lock := none, data := 0 }
    (by omega) (bucketOf_toInt_nonneg A hA)
    (fun r hr k hk => absurd hk (binit_no_refs 3 r hr k))
    (by decide) (by simp [binit]) rfl
    [.read pid d B xb 1, .release pid 1 t2, .read pid d C xc 2, .release pid 2 t3]
  have hra1 : ∀ r ∈ ta, ∀ k, some k ∈ r → k < 1 := by
    intro r hr k hk
    rcases hra r hr k hk with h | ⟨r0, hr0, hk0⟩
    · omega
    · exact absurd hk0 (binit_no_refs 3 r0 hr0 k)
  simp only [binit, List.replicate, List.set] at ha hia
  -- second read and release
  obtain ⟨tb, hb, hib, hrb⟩ := read_release_single d _ hia pid B xb 1 t2
    { valid := 0, dev := 0, blockno := 0, refcnt := 0, ticks := 0, lock := none, data := 0 }
    (by omega) (bucketOf_toInt_nonneg B hB)
    (by
      intro r hr k hk b0 hb0
      have hk1 := hra1 r hr k hk
      have hk0 : k = 0 := by omega
      subst hk0
      simp at hb0
      subst hb0
      exact hAB)
    (by
      simp only [minTickIndex, scanLoop, UINT_MAX]
      have e1 : t1 < 4294967295 := by omega
      simp [e1, h1])
    (by simp) rfl
    [.read pid d C xc 2, .release pid 2 t3]
  simp only [List.set] at hb hib hrb
  have hrb1 : ∀ r ∈ tb, ∀ k, some k ∈ r → k < 2 := by
    intro r hr k hk
    rcases hrb r hr k hk with h | ⟨r0, hr0, hk0⟩
    · omega
    · have := hra1 r0 hr0 k hk0
      omega
  -- third read and release
  obtain ⟨tc, hc, hic, hrc⟩ := read_release_single d _ hib pid C xc 2 t3
    { valid := 0, dev := 0, blockno := 0, refcnt := 0, ticks := 0, lock := none, data := 0 }
    (by omega) (bucketOf_toInt_nonneg C hC)
    (by
      intro r hr k hk b0 hb0
      have hk1 := hrb1 r hr k hk
      have hk0 : k = 0 ∨ k = 1 := by omega
      rcases hk0 with rfl | rfl
      · simp at hb0
        subst hb0
        exact hAC
      · simp at hb0
        subst hb0
        exact hBC)
    (by
      simp only [minTickIndex, scanLoop, UINT_MAX]
      have e1 : t1 < 4294967295 := by omega
      have e2 : ¬ t2 < t1 := by omega
      simp [e1, e2, h1])
    (by simp) rfl
    []
  simp only [List.set, afterAll] at hc hic hrc
  have hrc1 : ∀ r ∈ tc, ∀ k, some k ∈ r → k < 3 := by
    intro r hr k hk
    rcases hrc r hr k hk with h | ⟨r0, hr0, hk0⟩
    · omega
    · have := hrb1 r0 hr0 k hk0
      omega
  -- the read of D
  obtain ⟨td, hd, hid, hrd⟩ := bread_miss_single d _ hic pid D xd 0
    { valid := 1, dev := d, blockno := A, refcnt := 0, ticks := t1, lock := none, data := xa }
    (by omega) (bucketOf_toInt_nonneg D hD)
    (by
      intro r hr k hk b0 hb0
      have hk1 := hrc1 r hr k hk
      have hk0 : k = 0 ∨ k = 1 ∨ k = 2 := by omega
      rcases hk0 with rfl | rfl | rfl
      · simp at hb0
        subst hb0
        exact hAD
      · simp at hb0
        subst hb0
        exact hBD
      · simp at hb0
        subst hb0
        exact hCD)
    (by
      simp only [minTickIndex, scanLoop, UINT_MAX]
      have e1 : t1 < 4294967295 := by omega
      have e2 : ¬ t2 < t1 := by omega
      have e3 : ¬ t3 < t1 := by omega
      simp [e1, e2, e3])
    (by simp) rfl
  simp only [List.set] at hd hid hrd
  have hrd1 : ∀ r ∈ td, ∀ k, some k ∈ r → k < 3 := by
    intro r hr k hk
    rcases hrd r hr k hk with h | ⟨r0, hr0, hk0⟩
    · omega
    · exact hrc1 r0 hr0 k hk0
  -- the read of A
  obtain ⟨te, he, -, -⟩ := bread_miss_single d _ hid pid A xe 1
    { valid := 1, dev := d, blockno := B, refcnt := 0, ticks := t2, lock := none, data := xb }
    (by omega) (bucketOf_toInt_nonneg A hA)
    (by
      intro r hr k hk b0 hb0
      have hk1 := hrd1 r hr k hk
      have hk0 : k = 0 ∨ k = 1 ∨ k = 2 := by omega
      rcases hk0 with rfl | rfl | rfl
      · simp at hb0
        subst hb0
        exact Ne.symm hAD
      · simp at hb0
        subst hb0
        exact Ne.symm hAB
      · simp at hb0
        subst hb0
        exact Ne.symm hAC)
    (by
      simp only [minTickIndex, scanLoop, UINT_MAX]
      have e2 : t2 < 4294967295 := by omega
      have e3 : ¬ t3 < t2 := by omega
      simp [e2, e3])
    (by simp) rfl
  exact ⟨_, _, _, ha.trans (hb.trans hc), rfl, hd, rfl, he⟩

/-- Witness of `lru_scenario_evicts_oldest`: blocks 1, 2, 3, 4 of device 1 and ticks 1, 2,
3. -/
theorem lru_scenario_evicts_oldest_witness :
    ∃ s3 s4 s5,
      afterAll (binit 3)
        [.read 1 1 1 0 0, .release 1 0 1, .read 1 1 2 0 1, .release 1 1 2,
         .read 1 1 3 0 2, .release 1 2 3] = some s3 ∧
      idents s3 = [(1, 1), (1, 2), (1, 3)] ∧
      bread s3 1 1 4 0 = .ok (s4, 0, true) ∧
      idents s4 = [(1, 4), (1, 2), (1, 3)] ∧
      bread s4 1 1 1 0 = .ok (s5, 1, true) :=
  lru_scenario_evicts_oldest 1 1 1 2 3 4 0 0 0 0 0 1 2 3 (by decide) (by decide) (by decide)
    (by decide) (by decide) (by decide) (by decide) (by decide) (by decide) (by decide)
    (by decide) (by decide) (by decide) (by decide)

/-- C8 (failing input).  In a pool of two slots, after the calls below, both entries of
bucket 5 reference slot 1, which holds block `(2, 5)`, and the first entry of bucket 6
still references slot 0, which is free.  The miss for block 31 of device 1, of bucket 5,
re-keys slot 0 and calls `put(31, slot 0)`: bucket 5 is full and none of its entries has
key 31, so the loop ends with `j == TABLE_SIZE`; the test after the loop reads
`table[5][TABLE_SIZE]`, which is `table[6][0]`, finds slot 0 with block number 31 there
and assigns that entry.  Entry 0 of bucket 5 is not overwritten, the table is unchanged,
and the block that `bread` just returned is not found by `get`. -/
theorem put_full_bucket_tests_next_bucket :
    ∃ s0 b row s1, afterAll (binit 2)
        [.read 1 1 6 0 0, .release 1 0 0, .read 1 1 5 0 0, .read 2 1 18 0 1, .release 2 1 1,
         .read 2 2 5 0 1, .release 1 0 2] = some s0 ∧
      s0.buf[0]? = some b ∧ s0.table[5]? = some row ∧ row = [some 1, some 1] ∧
      entry s0.table 6 0 = some (some 0) ∧
      bucketOf (toInt 31) = 5 ∧
      (∀ x ∈ row, x ≠ none ∧ hasKey (rekey s0 0 b 1 31).buf (toInt 31) x = false) ∧
      putScan (rekey s0 0 b 1 31).buf (toInt 31) row = row.length ∧
      hasKey (rekey s0 0 b 1 31).buf (toInt 31) (some 0) = true ∧
      put (rekey s0 0 b 1 31) (toInt 31) 0 = .ok s0.table ∧
      entry s0.table 5 0 = some (some 1) ∧
      bread s0 1 1 31 0 = .ok (s1, 0, true) ∧ s1.table = s0.table ∧
      get s1 (toInt 31) = .ok none := by
  exact ⟨_, _, _, _, rfl, rfl, rfl, rfl, rfl, by decide, by decide, by decide, by decide,
    by decide, rfl, rfl, rfl, by decide⟩

/-- C9 (counterexample).  First, on one device: three blocks are read and released in a
pool of three slots; the read of block 3 then re-keys slot 0, which held block 0.  The
entry of bucket 0 still references slot 0, and so does the new entry of bucket 3.  Second,
with two devices even one bucket gets two entries for one slot: blocks 5 and 18 of device
1 are entries 0 and 1 of bucket 5; the miss for block 5 of device 2 re-keys slot 1 and its
`put` overwrites entry 0, the entry of slot 0, with slot 1. -/
theorem stale_entry_after_rekey :
    (∃ s, Reachable 3 s ∧ entry s.table 0 0 = some (some 0) ∧
      entry s.table 3 0 = some (some 0)) ∧
    (∃ s, Reachable 3 s ∧ entry s.table 5 0 = some (some 1) ∧
      entry s.table 5 1 = some (some 1)) := by
  refine ⟨?_, ?_⟩
  · exact ⟨_, ⟨[.read 1 1 0 0 0, .release 1 0 1, .read 1 1 1 0 1, .release 1 1 2,
      .read 1 1 2 0 2, .release 1 2 3, .read 1 1 3 0 0], rfl⟩, rfl, rfl⟩
  · exact ⟨_, ⟨[.read 1 1 5 0 0, .read 1 1 18 0 1, .release 1 1 1, .read 1 1 7 0 2,
      .read 2 2 5 0 1], rfl⟩, rfl, rfl⟩

/-- C9 (as amended).  In every state reached from `binit` by completed calls that use a
single device `d`, no bucket has two entries that reference the same slot. -/
theorem bucket_entries_distinct (n d : Nat) (evs : List Ev) (s : Bcache)
    (hd : ∀ ev ∈ evs, oneDevice d ev = true) (hrun : afterAll (binit n) evs = some s)
    (i j1 j2 k : Nat) (h1 : entry s.table i j1 = some (some k))
    (h2 : entry s.table i j2 = some (some k)) : j1 = j2 := by
  have hinv := TInv_afterAll d evs (binit n) s (TInv_binit d n) hd hrun
  obtain ⟨row, hrow, hmem, hj1⟩ := entry_eq_some _ _ _ _ h1
  obtain ⟨row2, hrow2, -, hj2⟩ := entry_eq_some _ _ _ _ h2
  rw [hrow] at hrow2
  injection hrow2 with hrow2
  subst hrow2
  exact RowOk_inj d s.buf row (hinv.2 row hmem) j1 j2 k hj1 hj2

/-- Witness of `bucket_entries_distinct`: the state of the counterexample, where bucket 3
has the one entry for slot 0. -/
theorem bucket_entries_distinct_witness :
    ∃ s, afterAll (binit 3) [.read 1 1 0 0 0, .release 1 0 1, .read 1 1 1 0 1,
        .release 1 1 2, .read 1 1 2 0 2, .release 1 2 3, .read 1 1 3 0 0] = some s ∧
      entry s.table 3 0 = some (some 0) ∧ (0 : Nat) = 0 := by
  exact ⟨_, rfl, rfl,
    bucket_entries_distinct 3 1 [.read 1 1 0 0 0, .release 1 0 1, .read 1 1 1 0 1,
      .release 1 1 2, .read 1 1 2 0 2, .release 1 2 3, .read 1 1 3 0 0] _ (by decide) rfl
      3 0 0 0 rfl rfl⟩

/-- C10 (failing input).  Process 1 reads and holds block `(1, 5)` in slot 0; process 2
reads block `(2, 5)`, a miss whose `put` overwrites the index entry of slot 0; process 3
reads block `(1, 5)`: the lookup finds the entry of device 2, so it is a miss again, and
slot 2 is re-keyed to `(1, 5)`.  Slots 0 and 2 now carry the same identity, both with pin
count 1 and both locked, by different processes. -/
theorem duplicate_identity_across_devices :
    ∃ s b0 b2, afterAll (binit 3) [.read 1 1 5 0 0, .read 2 2 5 0 1, .read 3 1 5 0 2] = some s ∧
      s.buf[0]? = some b0 ∧ s.buf[2]? = some b2 ∧
      0 < b0.refcnt ∧ 0 < b2.refcnt ∧
      (b0.dev, b0.blockno) = (1, 5) ∧ (b2.dev, b2.blockno) = (1, 5) ∧
      b0.lock = some 1 ∧ b2.lock = some 3 := by
  exact ⟨_, _, _, rfl, rfl, rfl, by decide, by decide, rfl, rfl, rfl, rfl⟩

/-- C11.  With `bget` modelled as the sequence of lock events it performs (`bgetEv`, whose
result is that of `bget`): in every execution the first event is the acquisition of the
bucket lock `buffer_lock[blockno % NBUCKET]`; the pool-wide lock `bcache.lock` is acquired
only when the lookup is not a hit, and only while that bucket lock is held; the sleep lock
of a slot is acquired only when no other lock is held, after the bucket lock, and on a
miss the pool-wide lock, have been released; and when `bget` returns slot `k`, the last
event is the acquisition of the sleep lock of `k`. -/
theorem bget_lock_order (s : Bcache) (pid dev bn : Nat) :
    (bgetEv s pid dev bn).2 = bget s pid dev bn ∧
    (bgetEv s pid dev bn).1.head? = some (.acquire (.bucket (bn % NBUCKET))) ∧
    (∀ n, (bgetEv s pid dev bn).1[n]? = some (.acquire .pool) →
      Lock.bucket (bn % NBUCKET) ∈ held ((bgetEv s pid dev bn).1.take n) ∧
      ∃ e, get s (toInt bn) = .ok e ∧ hitSlot s dev e = none) ∧
    (∀ n k, (bgetEv s pid dev bn).1[n]? = some (.acquire (.sleep k)) →
      held ((bgetEv s pid dev bn).1.take n) = [] ∧
      LockEv.release (.bucket (bn % NBUCKET)) ∈ (bgetEv s pid dev bn).1.take n ∧
      (LockEv.acquire .pool ∈ (bgetEv s pid dev bn).1.take n →
        LockEv.release .pool ∈ (bgetEv s pid dev bn).1.take n)) ∧
    (∀ s1 k, bget s pid dev bn = .ok (s1, k) →
      (bgetEv s pid dev bn).1.getLast? = some (.acquire (.sleep k))) := by
  refine ⟨bgetEv_result s pid dev bn, ?_⟩
  rcases bgetEv_shape s pid dev bn with ⟨htr, e0, hg⟩ | ⟨e, k0, b, hg, hh, htr, hret⟩ |
    ⟨e, hg, hh, ⟨htr, hret⟩ | ⟨m, htr, hret⟩⟩
  · rw [htr]
    refine ⟨rfl, ?_, ?_, ?_⟩
    · intro n hn
      rcases n with _ | n <;> simp at hn
    · intro n k hn
      rcases n with _ | n <;> simp at hn
    · intro s1 k hk
      rw [bget, hg] at hk
      cases hk
  · rw [htr]
    refine ⟨rfl, ?_, ?_, ?_⟩
    · intro n hn
      rcases n with _ | _ | _ | n <;> simp at hn
    · intro n k hn
      rcases n with _ | _ | _ | n <;> simp at hn
      subst hn
      simp [held, heldFrom]
    · intro s1 k hk
      rw [hret s1 k hk]
      rfl
  · rw [htr]
    refine ⟨rfl, ?_, ?_, ?_⟩
    · intro n hn
      rcases n with _ | _ | n <;> simp at hn
      exact ⟨by simp [held, heldFrom], e, hg, hh⟩
    · intro n k hn
      rcases n with _ | _ | n <;> simp at hn
    · intro s1 k hk
      exact absurd hk (hret s1 k)
  · rw [htr]
    refine ⟨rfl, ?_, ?_, ?_⟩
    · intro n hn
      rcases n with _ | _ | _ | _ | _ | n <;> simp at hn
      exact ⟨by simp [held, heldFrom], e, hg, hh⟩
    · intro n k hn
      rcases n with _ | _ | _ | _ | _ | n <;> simp at hn
      subst hn
      simp [held, heldFrom]
    · intro s1 k hk
      rw [hret s1 k hk]
      rfl

/-- Witness of `bget_lock_order`: the first `bget` on a fresh pool of three slots, a miss;
its fifth event is the acquisition of the sleep lock of slot 0, with no lock held. -/
theorem bget_lock_order_witness :
    (bgetEv (binit 3) 1 1 5).1 =
      [.acquire (.bucket 5), .acquire .pool, .release .pool, .release (.bucket 5),
       .acquire (.sleep 0)] ∧
    Lock.bucket (5 % NBUCKET) ∈ held ((bgetEv (binit 3) 1 1 5).1.take 1) ∧
    held ((bgetEv (binit 3) 1 1 5).1.take 4) = [] :=
  ⟨rfl, ((bget_lock_order (binit 3) 1 1 5).2.2.1 1 rfl).1,
    ((bget_lock_order (binit 3) 1 1 5).2.2.2.1 4 0 rfl).1⟩

/-- C12.  In every state reached from `binit` by completed calls that use a single device
`d` and block numbers below `2 ^ 31`: in each bucket the occupied entries form a prefix and
reference pairwise distinct slots; and whenever a further `bread(d, blockno)`, with
`blockno` below `2 ^ 31`, misses and its scan selects a slot `v` (no exhaustion), the `put`
it calls finds the bucket of `TABLE_SIZE` entries with an entry that is empty or has the
key: its loop ends with `j < TABLE_SIZE`, so `put` returns without the read of
`table[i][TABLE_SIZE]` and without the overwrite of entry 0. -/
theorem put_never_overflows (n d : Nat) (evs : List Ev) (s : Bcache)
    (hd : ∀ ev ∈ evs, lowDevice d ev = true)
    (hrun : afterAll (binit n) evs = some s) :
    (∀ row ∈ s.table, ∃ (ks : List Nat) (m : Nat),
        row = ks.map some ++ List.replicate m none ∧ ks.Nodup) ∧
    ∀ (bn : Nat) (e : Option Nat) (v : Nat) (b : Buf), bn < 2147483648 →
      get s (toInt bn) = .ok e → hitSlot s d e = none →
      minTickIndex s.buf = (v : Int) → s.buf[v]? = some b →
      ∃ row t, (rekey s v b d bn).table[(bucketOf (toInt bn)).toNat]? = some row ∧
        row.length = s.buf.length ∧
        (∃ x ∈ row, x = none ∨ hasKey (rekey s v b d bn).buf (toInt bn) x = true) ∧
        putScan (rekey s v b d bn).buf (toInt bn) row < row.length ∧
        put (rekey s v b d bn) (toInt bn) v = .ok t := by
  have hinv : TInv d s :=
    TInv_afterAll d evs (binit n) s (TInv_binit d n)
      (fun ev hev => oneDevice_of_lowDevice d ev (hd ev hev)) hrun
  refine ⟨?_, ?_⟩
  · intro row hrow
    obtain ⟨ks, m, hrw, hnd, -, -⟩ := hinv.2 row hrow
    exact ⟨ks, m, hrw, hnd⟩
  · intro bn e v b hbn hg hh hm hb
    have hi := bucketOf_toInt_nonneg bn hbn
    obtain ⟨row, hrow, hrok⟩ := TInv_row d s hinv (toInt bn) hi
    have hno := miss_no_key d s hinv bn e hg hh row hrow
    obtain ⟨t, hpt, -, -, -, hlt⟩ := put_rekeyed d s hinv bn (by omega) hi v b hb row hrow hno
    have hlen : row.length = s.buf.length := by
      obtain ⟨ks, m, hrw, -, hl, -⟩ := hrok
      rw [hrw]
      simpa using hl
    refine ⟨row, t, by simpa [rekey] using hrow, hlen, ?_, hlt, hpt⟩
    have hx := List.getElem?_eq_getElem hlt
    exact ⟨_, List.getElem?_mem hx, putScan_stops _ _ _ _ hx⟩

/-- Witness of `put_never_overflows`: after block 5 was read and released in a pool of
three slots, the miss for block 18, of the same bucket, selects slot 1 and its `put`
returns. -/
theorem put_never_overflows_witness :
    ∃ s row t, afterAll (binit 3) [.read 1 1 5 0 0, .release 1 0 1] = some s ∧
      (rekey s 1 ⟨0, 0, 0, 0, 0, none, 0⟩ 1 18).table[(bucketOf (toInt 18)).toNat]? = some row ∧
      putScan (rekey s 1 ⟨0, 0, 0, 0, 0, none, 0⟩ 1 18).buf (toInt 18) row < row.length ∧
      put (rekey s 1 ⟨0, 0, 0, 0, 0, none, 0⟩ 1 18) (toInt 18) 1 = .ok t := by
  obtain ⟨row, t, h1, -, -, h2, h3⟩ :=
    (put_never_overflows 3 1 [.read 1 1 5 0 0, .release 1 0 1]
      ⟨[⟨1, 1, 5, 0, 1, none, 0⟩, ⟨0, 0, 0, 0, 0, none, 0⟩, ⟨0, 0, 0, 0, 0, none, 0⟩],
        insert 0 (binit 3).table 5 0⟩ (by decide) rfl).2
      18 none 1 ⟨0, 0, 0, 0, 0, none, 0⟩ (by decide) (by decide) rfl (by decide) rfl
  exact ⟨_, row, t, rfl, h1, h2, h3⟩

/-- C13 (failing inputs).  For the block number `2147483649` the `int key` of `get` and
`put` is `-2147483647` and their bucket index `key % NBUCKET` is `-10`, outside
`0 <= i < NBUCKET`, while `bget` holds `buffer_lock[12]`; `get` then reads `table[-10][0]`.
For the block number `4294967283` the key is `-13` and the index is 0, inside the range,
but `bget` holds `buffer_lock[9]`. -/
theorem bucket_index_of_large_blockno :
    (2147483649 < 4294967296 ∧ toInt 2147483649 = -2147483647 ∧
      bucketOf (toInt 2147483649) = -10 ∧ 2147483649 % NBUCKET = 12 ∧
      get (binit 30) (toInt 2147483649) = .error .outOfBounds ∧
      (bgetEv (binit 30) 1 1 2147483649).1 = [.acquire (.bucket 12)]) ∧
    (4294967283 < 4294967296 ∧ toInt 4294967283 = -13 ∧
      bucketOf (toInt 4294967283) = 0 ∧ 4294967283 % NBUCKET = 9) := by
  refine ⟨⟨by decide, by decide, by decide, by decide, by decide, by decide⟩,
    by decide, by decide, by decide, by decide⟩

end Bio
